import Mathlib

/-!
# ExpireMap: a key-value store with per-entry expiry

A shallow embedding of `expire_map.h` / `expire_map.hh` for the instantiation
`ExpireMap<int, int>` exercised by `test_expire_map.cpp`, followed by theorems
about `put`, `get`, `remove` and the reclamation sweep `_evict`.

Modelling conventions:

* The clock (`high_resolution_clock::now()` in microseconds) is an explicit
  argument of every operation that samples it. `_evict` samples the clock once
  at entry and once after every bucket it processes, so it takes a stream of
  samples `clock : Nat → Int`.
* Operations run one at a time (no interleaving); the state is passed explicitly.
* `long long` arithmetic is `Int` arithmetic reduced to 64 bits by `wrap64`;
  the narrowing conversion `long long → int` is `wrap32`.
* `unordered_map`, `map` and `set` are association lists / lists. The functions
  assume but do not require well-formed (duplicate-free, ordered) inputs.
  `ExpiryQueue.Sorted` and `ExpiryQueue.NoEmpty` state the invariants of the
  expiry queue; `run_queueWF` shows that every operation keeps them.
* The calls on the two locks are kept apart from the state: for each operation a
  function (`put_locks`, `_evict_locks`, ...) lists the lock calls it makes, in
  program order along the path it executes.
-/

namespace ExpireMapModel

/-! ## Machine integers -/

/-- Reduction of an integer to the range of a signed 64-bit `long long`. -/
def wrap64 (x : Int) : Int := (x + 2 ^ 63) % 2 ^ 64 - 2 ^ 63

/-- Reduction of an integer to the range of a signed 32-bit `int`
(the conversion `long long → int`). -/
def wrap32 (x : Int) : Int := (x + 2 ^ 31) % 2 ^ 32 - 2 ^ 31

/-- The integer is representable as a signed 64-bit `long long`. -/
def Fits64 (x : Int) : Prop := -(2 ^ 63) ≤ x ∧ x < 2 ^ 63

instance (x : Int) : Decidable (Fits64 x) :=
  inferInstanceAs (Decidable (-(2 ^ 63) ≤ x ∧ x < 2 ^ 63))

/-! ## Types of `expire_map.h` -/

/-- Template argument `Key = int`. -/
abbrev Key := Int

/-- Template argument `Value = int`. -/
abbrev Value := Int

/-- The result `(Value)NULL` that `get` returns for an absent or expired key. -/
def NULL : Value := 0

/-- The struct `TimedValue`: a value and its absolute expiry in microseconds. -/
structure TimedValue where
  value : Value
  expiry : Int
deriving DecidableEq, Repr

/-- The type `unordered_map<Key, TimedValue>`. -/
abbrev KVStore := List (Key × TimedValue)

/-- The type `set<Key>`, in ascending order. -/
abbrev KeySet := List Key

/-- The type `map<long long, set<Key> >`, in ascending order of expiry. -/
abbrev ExpiryQueue := List (Int × KeySet)

/-! ## Container operations -/

/-- Lookup `_data_table.find(key)`; `none` stands for `end()`. -/
def KVStore.find : KVStore → Key → Option TimedValue
  | [], _ => none
  | (k', tv) :: rest, k => if k' = k then some tv else KVStore.find rest k

/-- Removal `_data_table.erase(key)`. -/
def KVStore.erase (tbl : KVStore) (k : Key) : KVStore :=
  tbl.filter (fun kv => decide (kv.1 ≠ k))

/-- Assignment `_data_table[key] = tv`: replaces the entry of `key`, or adds one. -/
def KVStore.assign : KVStore → Key → TimedValue → KVStore
  | [], k, tv => [(k, tv)]
  | (k', tv') :: rest, k, tv =>
    if k' = k then (k, tv) :: rest else (k', tv') :: KVStore.assign rest k tv

/-- Size `_data_table.size()`. -/
def KVStore.size (tbl : KVStore) : Nat := tbl.length

/-- Insertion `keyset.insert(key)` into an ordered set without duplicates. -/
def KeySet.insert : KeySet → Key → KeySet
  | [], k => [k]
  | x :: xs, k =>
    if k < x then k :: x :: xs
    else if k = x then x :: xs
    else x :: KeySet.insert xs k

/-- Removal `keyset.erase(key)`. -/
def KeySet.erase (ks : KeySet) (k : Key) : KeySet :=
  ks.filter (fun x => decide (x ≠ k))

/-- Lookup `_expiry_queue.find(expiry)`; `none` stands for `end()`. -/
def ExpiryQueue.find : ExpiryQueue → Int → Option KeySet
  | [], _ => none
  | (ts, ks) :: rest, e => if ts = e then some ks else ExpiryQueue.find rest e

/-- Insertion `_expiry_queue.insert(make_pair(expiry, ks))`: keeps the order,
and has no effect when a bucket at `expiry` exists. -/
def ExpiryQueue.insert : ExpiryQueue → Int → KeySet → ExpiryQueue
  | [], e, ks => [(e, ks)]
  | (ts, ks') :: rest, e, ks =>
    if e < ts then (e, ks) :: (ts, ks') :: rest
    else if e = ts then (ts, ks') :: rest
    else (ts, ks') :: ExpiryQueue.insert rest e ks

/-- Update through an iterator, `iter->second = f(iter->second)`, of the bucket
at `expiry`. -/
def ExpiryQueue.modify : ExpiryQueue → Int → (KeySet → KeySet) → ExpiryQueue
  | [], _, _ => []
  | (ts, ks) :: rest, e, f =>
    if ts = e then (ts, f ks) :: rest else (ts, ks) :: ExpiryQueue.modify rest e f

/-- Removal `_expiry_queue.erase(expiry)` of the bucket at `expiry`. -/
def ExpiryQueue.erase (q : ExpiryQueue) (e : Int) : ExpiryQueue :=
  q.filter (fun b => decide (b.1 ≠ e))

/-! ## The map and its operations -/

/-- The data members of `ExpireMap<int, int>` (threads and locks left out). -/
structure ExpireMap where
  _data_table : KVStore
  _expiry_queue : ExpiryQueue
  _shutdown : Bool
deriving DecidableEq, Repr

namespace ExpireMap

/-- The state built by the constructor `ExpireMap()`. -/
def empty : ExpireMap := ⟨[], [], false⟩

/-- The helper `_byol_erase_from_expiry_queue(long long expiry, Key key)`. -/
def _byol_erase_from_expiry_queue (q : ExpiryQueue) (expiry : Int) (key : Key) :
    ExpiryQueue :=
  match ExpiryQueue.find q expiry with
  | none => q
  | some ks =>
    let q1 := ExpiryQueue.modify q expiry (fun s => KeySet.erase s key)
    if (KeySet.erase ks key).isEmpty then ExpiryQueue.erase q1 expiry else q1

/-- The expiry `put` computes: `now`, then `expiry += (timeoutMs * 1000)`, with
`long` and `long long` both 64 bits wide. -/
def put_expiry (now timeoutMs : Int) : Int :=
  wrap64 (now + wrap64 (timeoutMs * 1000))

/-- The operation `put(key, value, timeoutMs)` with the clock reading `now`.
The call `_byol_erase_from_expiry_queue(key, ow_expiry)` passes `key` for the
parameter `long long expiry` and `ow_expiry` for the parameter `Key key`. -/
def put (m : ExpireMap) (now : Int) (key : Key) (value : Value) (timeoutMs : Int) :
    ExpireMap :=
  if m._shutdown || decide (timeoutMs ≤ 0) then m
  else
    let expiry := put_expiry now timeoutMs
    let old := KVStore.find m._data_table key
    let tbl := KVStore.assign m._data_table key ⟨value, expiry⟩
    let q1 :=
      match old with
      | some tv => _byol_erase_from_expiry_queue m._expiry_queue key (wrap32 tv.expiry)
      | none => m._expiry_queue
    let q2 :=
      match ExpiryQueue.find q1 expiry with
      | none => ExpiryQueue.insert q1 expiry []
      | some _ => q1
    let q3 := ExpiryQueue.modify q2 expiry (fun s => KeySet.insert s key)
    { m with _data_table := tbl, _expiry_queue := q3 }

/-- The operation `get(key)` with the clock reading `now`. -/
def get (m : ExpireMap) (now : Int) (key : Key) : Value :=
  if m._shutdown then NULL
  else
    match KVStore.find m._data_table key with
    | none => NULL
    | some tv => if tv.expiry < now then NULL else tv.value

/-- The operation `remove(key)`. As in `put`, the call
`_byol_erase_from_expiry_queue(key, expiry)` passes `key` for the parameter
`long long expiry` and `expiry` for the parameter `Key key`. -/
def remove (m : ExpireMap) (key : Key) : ExpireMap :=
  match KVStore.find m._data_table key with
  | some tv =>
    { m with
      _data_table := KVStore.erase m._data_table key
      _expiry_queue := _byol_erase_from_expiry_queue m._expiry_queue key (wrap32 tv.expiry) }
  | none => m

/-- The test accessor `debug_size()`, which returns an `int`. -/
def debug_size (m : ExpireMap) : Int := wrap32 (KVStore.size m._data_table)

/-- The `for` loop of `_evict` over the keys of one popped bucket: a key is
erased from the data table when its entry carries the expiry of the bucket. -/
def _evict_for (tbl : KVStore) (remove_expiry : Int) : KeySet → KVStore
  | [] => tbl
  | remove_key :: rest =>
    let tbl' :=
      match KVStore.find tbl remove_key with
      | some tv => if tv.expiry = remove_expiry then KVStore.erase tbl remove_key else tbl
      | none => tbl
    _evict_for tbl' remove_expiry rest

/-- The `while` loop of `_evict`. `i` is the index of the clock sample held in
`curtime`; every iteration pops the earliest bucket and takes sample `i + 1`.
Returns the data table, the queue and the last clock sample. -/
def _evict_while (shutdown : Bool) (clock : Nat → Int) :
    ExpiryQueue → Nat → Int → KVStore → KVStore × ExpiryQueue × Int
  | [], _, curtime, tbl => (tbl, [], curtime)
  | (remove_expiry, remove_keys) :: rest, i, curtime, tbl =>
    if !shutdown && decide (remove_expiry < curtime) then
      _evict_while shutdown clock rest (i + 1) (clock (i + 1))
        (_evict_for tbl remove_expiry remove_keys)
    else (tbl, (remove_expiry, remove_keys) :: rest, curtime)

/-- The sleep time `_evict` computes once its loop has ended. -/
def _evict_sleeptime (shutdown : Bool) (q : ExpiryQueue) (curtime : Int) : Int :=
  let sleeptime : Int := if shutdown then 0 else 4000
  match q with
  | [] => sleeptime
  | (first, _) :: _ =>
    if !shutdown then min sleeptime (wrap64 (wrap64 (first - curtime) + 1)) else sleeptime

/-- The sweep `_evict()`: the state it leaves and the sleep time it returns. -/
def _evict (m : ExpireMap) (clock : Nat → Int) : ExpireMap × Int :=
  let r := _evict_while m._shutdown clock m._expiry_queue 0 (clock 0) m._data_table
  ({ m with _data_table := r.1, _expiry_queue := r.2.1 },
    _evict_sleeptime m._shutdown r.2.1 r.2.2)

/-- One call on the map, with the clock readings it takes. -/
inductive Op where
  | put (now : Int) (key : Key) (value : Value) (timeoutMs : Int)
  | remove (key : Key)
  | evict (clock : Nat → Int)

/-- The state after one call. -/
def step (m : ExpireMap) : Op → ExpireMap
  | Op.put now key value timeoutMs => put m now key value timeoutMs
  | Op.remove key => remove m key
  | Op.evict clock => (_evict m clock).1

/-- The state after a sequence of calls, one after the other. -/
def run (m : ExpireMap) (ops : List Op) : ExpireMap := ops.foldl step m

/-- The call is not a `put` or `remove` of `k`, and if it is a sweep, all its
clock samples are at most `bound`. -/
def Op.Quiet (k : Key) (bound : Int) : Op → Prop
  | Op.put _ key _ _ => key ≠ k
  | Op.remove key => key ≠ k
  | Op.evict clock => ∀ i, clock i ≤ bound

/-- The arguments of one `put` call together with the clock reading it takes. -/
structure PutCall where
  now : Int
  key : Key
  value : Value
  timeoutMs : Int

/-- The call as an operation on the map. -/
def PutCall.toOp (p : PutCall) : Op := Op.put p.now p.key p.value p.timeoutMs

/-- Every entry of the data table has its key in a bucket at its expiry. -/
def Covered (m : ExpireMap) : Prop :=
  ∀ k tv, KVStore.find m._data_table k = some tv →
    ∃ ks, (tv.expiry, ks) ∈ m._expiry_queue ∧ k ∈ ks

/-- Every bucket of the queue sits at the expiry of some entry of the data table. -/
def Backed (m : ExpireMap) : Prop :=
  ∀ b ∈ m._expiry_queue, ∃ k tv, KVStore.find m._data_table k = some tv ∧ tv.expiry = b.1

end ExpireMap

/-- The ordering invariant of `map<long long, set<Key> >`: the timestamps of the
buckets are strictly ascending, so every timestamp has at most one bucket. -/
def ExpiryQueue.Sorted (q : ExpiryQueue) : Prop :=
  List.Pairwise (fun (a b : Int × KeySet) => a.1 < b.1) q

instance (q : ExpiryQueue) : Decidable (ExpiryQueue.Sorted q) :=
  inferInstanceAs (Decidable (List.Pairwise (fun (a b : Int × KeySet) => a.1 < b.1) q))

/-- No bucket of the queue holds an empty key set. -/
def ExpiryQueue.NoEmpty (q : ExpiryQueue) : Prop := ∀ b ∈ q, b.2 ≠ []

instance (q : ExpiryQueue) : Decidable (ExpiryQueue.NoEmpty q) :=
  inferInstanceAs (Decidable (∀ b ∈ q, b.2 ≠ []))

namespace ExpireMap
/-- The expiry queue of the state is ordered and has no empty bucket. -/
def QueueWF (m : ExpireMap) : Prop :=
  ExpiryQueue.Sorted m._expiry_queue ∧ ExpiryQueue.NoEmpty m._expiry_queue
/-- The buckets the `while` loop of `_evict` pops, in the order it pops them. The
loop condition does not read the data table, so the table is left out. -/
def _evict_popped (shutdown : Bool) (clock : Nat → Int) :
    ExpiryQueue → Nat → Int → List (Int × KeySet)
  | [], _, _ => []
  | (remove_expiry, remove_keys) :: rest, i, curtime =>
    if !shutdown && decide (remove_expiry < curtime) then
      (remove_expiry, remove_keys) ::
        _evict_popped shutdown clock rest (i + 1) (clock (i + 1))
    else []
end ExpireMap

/-! ## The lock calls of the operations -/

/-- The calls on `data_tbl_lock` (a `pthread_rwlock_t`) and on `expiry_q_lock`
(a `pthread_mutex_t`) that occur in `expire_map.h` and `expire_map.hh`. -/
inductive LockCall where
  | rwlock_wrlock
  | rwlock_rdlock
  | rwlock_unlock
  | mutex_lock
  | mutex_trylock
  | mutex_unlock
deriving DecidableEq, Repr

/-- Which of the two locks the executing thread holds. -/
structure LocksHeld where
  data_tbl_lock : Bool
  expiry_q_lock : Bool
deriving DecidableEq, Repr

/-- The call is in order for a thread holding `h`: it locks a lock the thread does
not hold, or unlocks one it holds; `mutex_trylock` stands for
`assert(pthread_mutex_trylock(&expiry_q_lock) == EBUSY)`, in order when the mutex
is held. -/
def LockCall.allowed (h : LocksHeld) : LockCall → Bool
  | LockCall.rwlock_wrlock => !h.data_tbl_lock
  | LockCall.rwlock_rdlock => !h.data_tbl_lock
  | LockCall.rwlock_unlock => h.data_tbl_lock
  | LockCall.mutex_lock => !h.expiry_q_lock
  | LockCall.mutex_trylock => h.expiry_q_lock
  | LockCall.mutex_unlock => h.expiry_q_lock

/-- The locks the thread holds after the call. -/
def LockCall.apply (h : LocksHeld) : LockCall → LocksHeld
  | LockCall.rwlock_wrlock => { h with data_tbl_lock := true }
  | LockCall.rwlock_rdlock => { h with data_tbl_lock := true }
  | LockCall.rwlock_unlock => { h with data_tbl_lock := false }
  | LockCall.mutex_lock => { h with expiry_q_lock := true }
  | LockCall.mutex_trylock => { h with expiry_q_lock := true }
  | LockCall.mutex_unlock => { h with expiry_q_lock := false }

/-- Starting with the locks `h`, every call of the sequence is in order, the two
locks are never held together after a call, and no lock is held at the end. -/
def LocksHeld.disciplined : LocksHeld → List LockCall → Bool
  | h, [] => !h.data_tbl_lock && !h.expiry_q_lock
  | h, c :: cs =>
    LockCall.allowed h c &&
      !((LockCall.apply h c).data_tbl_lock && (LockCall.apply h c).expiry_q_lock) &&
      LocksHeld.disciplined (LockCall.apply h c) cs

namespace ExpireMap

/-- The lock call of `_byol_erase_from_expiry_queue`: the assertion on `trylock`. -/
def _byol_erase_locks : List LockCall := [LockCall.mutex_trylock]

/-- The lock calls of `put(key, value, timeoutMs)`, in program order. -/
def put_locks (m : ExpireMap) (key : Key) (timeoutMs : Int) : List LockCall :=
  if m._shutdown || decide (timeoutMs ≤ 0) then []
  else
    [LockCall.rwlock_wrlock, LockCall.rwlock_unlock, LockCall.mutex_lock] ++
      (match KVStore.find m._data_table key with
        | some _ => _byol_erase_locks
        | none => []) ++
      [LockCall.mutex_unlock]

/-- The lock calls of `get(key)`: on either return path a read lock and its unlock. -/
def get_locks (m : ExpireMap) : List LockCall :=
  if m._shutdown then [] else [LockCall.rwlock_rdlock, LockCall.rwlock_unlock]

/-- The lock calls of `remove(key)`, in program order. -/
def remove_locks (m : ExpireMap) (key : Key) : List LockCall :=
  [LockCall.rwlock_wrlock, LockCall.rwlock_unlock] ++
    (match KVStore.find m._data_table key with
      | some _ => [LockCall.mutex_lock] ++ _byol_erase_locks ++ [LockCall.mutex_unlock]
      | none => [])

/-- The lock calls of `debug_size()`. -/
def debug_size_locks : List LockCall := [LockCall.rwlock_rdlock, LockCall.rwlock_unlock]

/-- The lock calls of the `while` loop of `_evict`: four per iteration. -/
def _evict_while_locks (shutdown : Bool) (clock : Nat → Int) :
    ExpiryQueue → Nat → Int → List LockCall
  | [], _, _ => []
  | (remove_expiry, _) :: rest, i, curtime =>
    if !shutdown && decide (remove_expiry < curtime) then
      [LockCall.mutex_unlock, LockCall.rwlock_wrlock, LockCall.rwlock_unlock,
        LockCall.mutex_lock] ++ _evict_while_locks shutdown clock rest (i + 1) (clock (i + 1))
    else []

/-- The lock calls of `_evict()`, in program order. -/
def _evict_locks (m : ExpireMap) (clock : Nat → Int) : List LockCall :=
  LockCall.mutex_lock ::
    (_evict_while_locks m._shutdown clock m._expiry_queue 0 (clock 0) ++
      [LockCall.mutex_unlock])


/-- The shadow expiry of `test_expire_map.cpp`,
`shadowlist[idx].expiry = curtime + timeout_ms * 1000`: `timeout_ms` is an `int`, so
the product is formed in 32 bits, and the sum is a `long long` stored in a `long`. -/
def shadow_expiry (curtime timeout_ms : Int) : Int :=
  wrap64 (curtime + wrap32 (timeout_ms * 1000))

/-- The call `get(key)` as a state transformer: the state after the call and the
value returned, one pair per `return` of the body. The body reads `_shutdown` and
looks the key up with `find`; it assigns to no data member. -/
def get_call (m : ExpireMap) (now : Int) (key : Key) : ExpireMap × Value :=
  if m._shutdown then (m, NULL)
  else
    match KVStore.find m._data_table key with
    | none => (m, NULL)
    | some tv => if tv.expiry < now then (m, NULL) else (m, tv.value)

/-- The variables the `while` loop of `_evict` works on: the data table, the expiry
queue, the clock reading `curtime` and the number of the sample it holds. -/
structure EvictLoop where
  tbl : KVStore
  q : ExpiryQueue
  curtime : Int
  sample : Nat

/-- The loop condition
`!_shutdown && !_expiry_queue.empty() && _expiry_queue.begin()->first < curtime`. -/
def _evict_cond (shutdown : Bool) (s : EvictLoop) : Bool :=
  !shutdown &&
    match s.q with
    | [] => false
    | (first, _) :: _ => decide (first < s.curtime)

/-- One run of the loop body: the earliest bucket is erased from the queue, its keys
go through the `for` loop, and the clock is read again. -/
def _evict_body (clock : Nat → Int) (s : EvictLoop) : EvictLoop :=
  match s.q with
  | [] => s
  | (remove_expiry, remove_keys) :: rest =>
    ⟨_evict_for s.tbl remove_expiry remove_keys, rest, clock (s.sample + 1), s.sample + 1⟩

/-- The `while` loop run for at most `fuel` iterations: the variables at loop exit
and the number of iterations made, or `none` when the condition still holds after
`fuel` iterations. -/
def _evict_iterate (shutdown : Bool) (clock : Nat → Int) :
    Nat → EvictLoop → Option (EvictLoop × Nat)
  | 0, s => if _evict_cond shutdown s then none else some (s, 0)
  | fuel + 1, s =>
    if _evict_cond shutdown s then
      (_evict_iterate shutdown clock fuel (_evict_body clock s)).map
        (fun r => (r.1, r.2 + 1))
    else some (s, 0)

end ExpireMap

/-! ## Machine integer lemmas -/

theorem wrap64_of_fits (x : Int) (h : Fits64 x) : wrap64 x = x := by
  unfold wrap64
  unfold Fits64 at h
  omega

theorem put_expiry_of_fits (now timeoutMs : Int) (h : Fits64 (now + 1000 * timeoutMs)) :
    ExpireMap.put_expiry now timeoutMs = now + 1000 * timeoutMs := by
  unfold ExpireMap.put_expiry wrap64
  unfold Fits64 at h
  omega

/-! ## Data table lemmas -/

theorem KVStore.find_cons_self (k : Key) (tv : TimedValue) (rest : KVStore) :
    KVStore.find ((k, tv) :: rest) k = some tv := by
  simp [KVStore.find]

theorem KVStore.find_cons_ne (k0 k : Key) (tv : TimedValue) (rest : KVStore)
    (h : k0 ≠ k) : KVStore.find ((k0, tv) :: rest) k = KVStore.find rest k := by
  simp [KVStore.find, h]

theorem KVStore.erase_cons_self (k : Key) (tv : TimedValue) (rest : KVStore) :
    KVStore.erase ((k, tv) :: rest) k = KVStore.erase rest k := by
  simp [KVStore.erase]

theorem KVStore.erase_cons_ne (k0 k : Key) (tv : TimedValue) (rest : KVStore)
    (h : k0 ≠ k) :
    KVStore.erase ((k0, tv) :: rest) k = (k0, tv) :: KVStore.erase rest k := by
  simp [KVStore.erase, h]

theorem KVStore.assign_cons_self (k : Key) (tv0 tv : TimedValue) (rest : KVStore) :
    KVStore.assign ((k, tv0) :: rest) k tv = (k, tv) :: rest := by
  simp [KVStore.assign]

theorem KVStore.assign_cons_ne (k0 k : Key) (tv0 tv : TimedValue) (rest : KVStore)
    (h : k0 ≠ k) :
    KVStore.assign ((k0, tv0) :: rest) k tv = (k0, tv0) :: KVStore.assign rest k tv := by
  simp [KVStore.assign, h]

theorem KVStore.find_erase_self (tbl : KVStore) (k : Key) :
    KVStore.find (KVStore.erase tbl k) k = none := by
  induction tbl with
  | nil => rfl
  | cons kv rest ih =>
    obtain ⟨k0, tv⟩ := kv
    by_cases h : k0 = k
    · subst h
      rw [KVStore.erase_cons_self]; exact ih
    · rw [KVStore.erase_cons_ne _ _ _ _ h, KVStore.find_cons_ne _ _ _ _ h]; exact ih

theorem KVStore.find_erase_ne (tbl : KVStore) (k k' : Key) (hne : k' ≠ k) :
    KVStore.find (KVStore.erase tbl k) k' = KVStore.find tbl k' := by
  induction tbl with
  | nil => rfl
  | cons kv rest ih =>
    obtain ⟨k0, tv⟩ := kv
    by_cases h : k0 = k
    · subst h
      rw [KVStore.erase_cons_self, KVStore.find_cons_ne _ _ _ _ (Ne.symm hne)]; exact ih
    · rw [KVStore.erase_cons_ne _ _ _ _ h]
      by_cases h1 : k0 = k'
      · subst h1
        rw [KVStore.find_cons_self, KVStore.find_cons_self]
      · rw [KVStore.find_cons_ne _ _ _ _ h1, KVStore.find_cons_ne _ _ _ _ h1]; exact ih

theorem KVStore.erase_of_find_none (tbl : KVStore) (k : Key)
    (h : KVStore.find tbl k = none) : KVStore.erase tbl k = tbl := by
  induction tbl with
  | nil => rfl
  | cons kv rest ih =>
    obtain ⟨k0, tv⟩ := kv
    by_cases h0 : k0 = k
    · subst h0
      rw [KVStore.find_cons_self] at h
      exact absurd h (by simp)
    · rw [KVStore.find_cons_ne _ _ _ _ h0] at h
      rw [KVStore.erase_cons_ne _ _ _ _ h0, ih h]

theorem KVStore.find_assign_self (tbl : KVStore) (k : Key) (tv : TimedValue) :
    KVStore.find (KVStore.assign tbl k tv) k = some tv := by
  induction tbl with
  | nil => simp [KVStore.assign, KVStore.find]
  | cons kv rest ih =>
    obtain ⟨k0, tv0⟩ := kv
    by_cases h0 : k0 = k
    · subst h0
      rw [KVStore.assign_cons_self, KVStore.find_cons_self]
    · rw [KVStore.assign_cons_ne _ _ _ _ _ h0, KVStore.find_cons_ne _ _ _ _ h0]; exact ih

theorem KVStore.find_assign_ne (tbl : KVStore) (k k' : Key) (tv : TimedValue)
    (hne : k' ≠ k) :
    KVStore.find (KVStore.assign tbl k tv) k' = KVStore.find tbl k' := by
  induction tbl with
  | nil => simp [KVStore.assign, KVStore.find, Ne.symm hne]
  | cons kv rest ih =>
    obtain ⟨k0, tv0⟩ := kv
    by_cases h0 : k0 = k
    · subst h0
      rw [KVStore.assign_cons_self, KVStore.find_cons_ne _ _ _ _ (Ne.symm hne),
        KVStore.find_cons_ne _ _ _ _ (Ne.symm hne)]
    · rw [KVStore.assign_cons_ne _ _ _ _ _ h0]
      by_cases h1 : k0 = k'
      · subst h1
        rw [KVStore.find_cons_self, KVStore.find_cons_self]
      · rw [KVStore.find_cons_ne _ _ _ _ h1, KVStore.find_cons_ne _ _ _ _ h1]; exact ih

theorem KVStore.eq_nil_of_find_none (tbl : KVStore)
    (h : ∀ k, KVStore.find tbl k = none) : tbl = [] := by
  cases tbl with
  | nil => rfl
  | cons kv rest =>
    obtain ⟨k0, tv0⟩ := kv
    have := h k0
    rw [KVStore.find_cons_self] at this
    exact absurd this (by simp)

namespace ExpireMap

/-! ## Effect of `put` and `remove` on the data table -/

theorem put_noop (m : ExpireMap) (now : Int) (key : Key) (value : Value)
    (timeoutMs : Int) (h : m._shutdown = true ∨ timeoutMs ≤ 0) :
    put m now key value timeoutMs = m := by
  unfold put
  rcases h with h | h
  · simp [h]
  · simp [h]

theorem put_shutdown (m : ExpireMap) (now : Int) (key : Key) (value : Value)
    (timeoutMs : Int) : (put m now key value timeoutMs)._shutdown = m._shutdown := by
  unfold put
  split <;> rfl

theorem put_data (m : ExpireMap) (now : Int) (key : Key) (value : Value)
    (timeoutMs : Int) (hs : m._shutdown = false) (ht : 0 < timeoutMs) :
    (put m now key value timeoutMs)._data_table =
      KVStore.assign m._data_table key ⟨value, put_expiry now timeoutMs⟩ := by
  unfold put
  have : ¬ timeoutMs ≤ 0 := by omega
  simp [hs, this]

theorem put_find_self (m : ExpireMap) (now : Int) (key : Key) (value : Value)
    (timeoutMs : Int) (hs : m._shutdown = false) (ht : 0 < timeoutMs) :
    KVStore.find (put m now key value timeoutMs)._data_table key =
      some ⟨value, put_expiry now timeoutMs⟩ := by
  rw [put_data m now key value timeoutMs hs ht, KVStore.find_assign_self]

theorem put_find_ne (m : ExpireMap) (now : Int) (key : Key) (value : Value)
    (timeoutMs : Int) (k' : Key) (hne : k' ≠ key) :
    KVStore.find (put m now key value timeoutMs)._data_table k' =
      KVStore.find m._data_table k' := by
  by_cases h : m._shutdown = true ∨ timeoutMs ≤ 0
  · rw [put_noop m now key value timeoutMs h]
  · have hs : m._shutdown = false := by
      cases hb : m._shutdown
      · rfl
      · exact absurd (Or.inl hb) h
    have ht : 0 < timeoutMs := by
      by_contra hc
      exact h (Or.inr (by omega))
    rw [put_data m now key value timeoutMs hs ht, KVStore.find_assign_ne _ _ _ _ hne]

theorem remove_shutdown (m : ExpireMap) (key : Key) :
    (remove m key)._shutdown = m._shutdown := by
  unfold remove
  split <;> rfl

theorem remove_data (m : ExpireMap) (key : Key) :
    (remove m key)._data_table = KVStore.erase m._data_table key := by
  unfold remove
  split
  · rfl
  · next h => exact (KVStore.erase_of_find_none _ _ h).symm

theorem remove_of_absent (m : ExpireMap) (key : Key)
    (h : KVStore.find m._data_table key = none) : remove m key = m := by
  unfold remove
  rw [h]

theorem get_of_find (m : ExpireMap) (now : Int) (key : Key) (tv : TimedValue)
    (hs : m._shutdown = false) (hf : KVStore.find m._data_table key = some tv)
    (hn : now ≤ tv.expiry) : get m now key = tv.value := by
  unfold get
  have : ¬ tv.expiry < now := by omega
  simp [hs, hf, this]

theorem get_of_expired (m : ExpireMap) (now : Int) (key : Key) (tv : TimedValue)
    (hf : KVStore.find m._data_table key = some tv)
    (hn : tv.expiry < now) : get m now key = NULL := by
  unfold get
  split
  · rfl
  · simp [hf, hn]

theorem get_of_absent (m : ExpireMap) (now : Int) (key : Key)
    (hf : KVStore.find m._data_table key = none) : get m now key = NULL := by
  unfold get
  split
  · rfl
  · simp [hf]

theorem get_congr (m m' : ExpireMap) (now : Int) (key : Key)
    (hs : m'._shutdown = m._shutdown)
    (hf : KVStore.find m'._data_table key = KVStore.find m._data_table key) :
    get m' now key = get m now key := by
  unfold get
  rw [hs, hf]

/-! ## Effect of the sweep on the data table -/

theorem evict_for_keep (remove_expiry : Int) (ks : KeySet) (tbl : KVStore) (k : Key)
    (tv : TimedValue) (hf : KVStore.find tbl k = some tv)
    (hne : tv.expiry ≠ remove_expiry) :
    KVStore.find (_evict_for tbl remove_expiry ks) k = some tv := by
  induction ks generalizing tbl with
  | nil => exact hf
  | cons x rest ih =>
    unfold _evict_for
    apply ih
    split
    · next tv' hx =>
      split
      · next he =>
        have hxk : k ≠ x := by
          intro e
          subst e
          rw [hf] at hx
          cases hx
          exact hne he
        rw [KVStore.find_erase_ne _ _ _ hxk]; exact hf
      · exact hf
    · exact hf

theorem evict_for_only_erases (remove_expiry : Int) (ks : KeySet) (tbl : KVStore)
    (k : Key) (tv : TimedValue)
    (hf : KVStore.find (_evict_for tbl remove_expiry ks) k = some tv) :
    KVStore.find tbl k = some tv := by
  induction ks generalizing tbl with
  | nil => exact hf
  | cons x rest ih =>
    unfold _evict_for at hf
    have h1 := ih _ hf
    split at h1
    · split at h1
      · by_cases hxk : k = x
        · subst hxk
          rw [KVStore.find_erase_self] at h1
          exact absurd h1 (by simp)
        · rwa [KVStore.find_erase_ne _ _ _ hxk] at h1
      · exact h1
    · exact h1

theorem evict_for_erases (remove_expiry : Int) (ks : KeySet) (tbl : KVStore)
    (k : Key) (tv : TimedValue) (hk : k ∈ ks)
    (hf : KVStore.find tbl k = some tv) (he : tv.expiry = remove_expiry) :
    KVStore.find (_evict_for tbl remove_expiry ks) k = none := by
  induction ks generalizing tbl with
  | nil => simp at hk
  | cons x rest ih =>
    cases h : KVStore.find (_evict_for tbl remove_expiry (x :: rest)) k with
    | none => rfl
    | some tv' =>
      exfalso
      unfold _evict_for at h
      have h1 := evict_for_only_erases _ _ _ _ _ h
      by_cases hxk : k = x
      · subst hxk
        simp only [hf, he, if_true] at h1
        rw [KVStore.find_erase_self] at h1
        exact absurd h1 (by simp)
      · have hk' : k ∈ rest := by
          rcases List.mem_cons.mp hk with h0 | h0
          · exact absurd h0 hxk
          · exact h0
        have h2 : KVStore.find
            (match KVStore.find tbl x with
              | some tv => if tv.expiry = remove_expiry then KVStore.erase tbl x else tbl
              | none => tbl) k = some tv := by
          split
          · split
            · rw [KVStore.find_erase_ne _ _ _ hxk]; exact hf
            · exact hf
          · exact hf
        have h3 := ih _ hk' h2
        rw [h3] at h
        exact absurd h (by simp)


theorem evict_while_keep (shutdown : Bool) (clock : Nat → Int) (bound : Int)
    (hclk : ∀ i, clock i ≤ bound) (k : Key) (tv : TimedValue)
    (hexp : bound ≤ tv.expiry) (q : ExpiryQueue) (i : Nat) (curtime : Int)
    (hcur : curtime ≤ bound) (tbl : KVStore) (hf : KVStore.find tbl k = some tv) :
    KVStore.find (_evict_while shutdown clock q i curtime tbl).1 k = some tv := by
  induction q generalizing i curtime tbl with
  | nil => exact hf
  | cons b rest ih =>
    obtain ⟨ts, ks⟩ := b
    unfold _evict_while
    split
    · next hc =>
      have hlt : ts < curtime := by
        simp only [Bool.and_eq_true, decide_eq_true_eq] at hc
        exact hc.2
      apply ih _ _ (hclk _)
      exact evict_for_keep _ _ _ _ _ hf (by omega)
    · exact hf

theorem evict_while_only_erases (shutdown : Bool) (clock : Nat → Int) (k : Key)
    (tv : TimedValue) (q : ExpiryQueue) (i : Nat) (curtime : Int) (tbl : KVStore)
    (hf : KVStore.find (_evict_while shutdown clock q i curtime tbl).1 k = some tv) :
    KVStore.find tbl k = some tv := by
  induction q generalizing i curtime tbl with
  | nil => exact hf
  | cons b rest ih =>
    obtain ⟨ts, ks⟩ := b
    unfold _evict_while at hf
    split at hf
    · exact evict_for_only_erases _ _ _ _ _ (ih _ _ _ hf)
    · exact hf

theorem evict_shutdown (m : ExpireMap) (clock : Nat → Int) :
    (_evict m clock).1._shutdown = m._shutdown := rfl

theorem evict_keep (m : ExpireMap) (clock : Nat → Int) (bound : Int)
    (hclk : ∀ i, clock i ≤ bound) (k : Key) (tv : TimedValue)
    (hf : KVStore.find m._data_table k = some tv) (hexp : bound ≤ tv.expiry) :
    KVStore.find (_evict m clock).1._data_table k = some tv :=
  evict_while_keep _ clock bound hclk k tv hexp _ 0 _ (hclk 0) _ hf

/-! ## Sequences of calls -/

theorem run_nil (m : ExpireMap) : run m [] = m := rfl

theorem run_cons (m : ExpireMap) (op : Op) (ops : List Op) :
    run m (op :: ops) = run (step m op) ops := rfl

theorem step_shutdown (m : ExpireMap) (op : Op) : (step m op)._shutdown = m._shutdown := by
  cases op with
  | put now key value timeoutMs => exact put_shutdown _ _ _ _ _
  | remove key => exact remove_shutdown _ _
  | evict clock => rfl

theorem run_shutdown (m : ExpireMap) (ops : List Op) :
    (run m ops)._shutdown = m._shutdown := by
  induction ops generalizing m with
  | nil => rfl
  | cons op rest ih => rw [run_cons, ih, step_shutdown]

theorem step_keep (m : ExpireMap) (op : Op) (k : Key) (bound : Int)
    (hq : Op.Quiet k bound op) (tv : TimedValue)
    (hf : KVStore.find m._data_table k = some tv) (hexp : bound ≤ tv.expiry) :
    KVStore.find (step m op)._data_table k = some tv := by
  cases op with
  | put now key value timeoutMs =>
    have hne : k ≠ key := fun e => hq e.symm
    show KVStore.find (put m now key value timeoutMs)._data_table k = some tv
    rw [put_find_ne _ _ _ _ _ _ hne]; exact hf
  | remove key =>
    have hne : k ≠ key := fun e => hq e.symm
    show KVStore.find (remove m key)._data_table k = some tv
    rw [remove_data, KVStore.find_erase_ne _ _ _ hne]; exact hf
  | evict clock => exact evict_keep m clock bound hq k tv hf hexp

theorem run_keep (ops : List Op) (m : ExpireMap) (k : Key) (bound : Int)
    (hq : ∀ op ∈ ops, Op.Quiet k bound op) (tv : TimedValue)
    (hf : KVStore.find m._data_table k = some tv) (hexp : bound ≤ tv.expiry) :
    KVStore.find (run m ops)._data_table k = some tv := by
  induction ops generalizing m with
  | nil => exact hf
  | cons op rest ih =>
    rw [run_cons]
    apply ih
    · intro o ho
      exact hq o (List.mem_cons_of_mem _ ho)
    · exact step_keep m op k bound (hq op (List.mem_cons_self _ _)) tv hf hexp

end ExpireMap

/-! ## Key set and expiry queue lemmas -/

theorem KeySet.mem_insert_self (ks : KeySet) (k : Key) : k ∈ KeySet.insert ks k := by
  induction ks with
  | nil => simp [KeySet.insert]
  | cons x xs ih =>
    unfold KeySet.insert
    split
    · simp
    · split
      · next h => simp [h]
      · exact List.mem_cons_of_mem _ ih

theorem KeySet.mem_insert_of_mem (ks : KeySet) (k x : Key) (hx : x ∈ ks) :
    x ∈ KeySet.insert ks k := by
  induction ks with
  | nil => simp at hx
  | cons y ys ih =>
    unfold KeySet.insert
    split
    · exact List.mem_cons_of_mem _ hx
    · split
      · exact hx
      · rcases List.mem_cons.mp hx with h | h
        · rw [h]; exact List.mem_cons_self _ _
        · exact List.mem_cons_of_mem _ (ih h)

theorem ExpiryQueue.mem_insert_bucket_of_mem (q : ExpiryQueue) (e : Int) (ks : KeySet)
    (b : Int × KeySet) (hb : b ∈ q) : b ∈ ExpiryQueue.insert q e ks := by
  induction q with
  | nil => simp at hb
  | cons c rest ih =>
    obtain ⟨ts, ks'⟩ := c
    unfold ExpiryQueue.insert
    split
    · exact List.mem_cons_of_mem _ hb
    · split
      · exact hb
      · rcases List.mem_cons.mp hb with h | h
        · rw [h]; exact List.mem_cons_self _ _
        · exact List.mem_cons_of_mem _ (ih h)

theorem ExpiryQueue.mem_of_mem_insert (q : ExpiryQueue) (e : Int) (ks : KeySet)
    (b : Int × KeySet) (hb : b ∈ ExpiryQueue.insert q e ks) : b ∈ q ∨ b = (e, ks) := by
  induction q with
  | nil =>
    simp only [ExpiryQueue.insert, List.mem_singleton] at hb
    exact Or.inr hb
  | cons c rest ih =>
    obtain ⟨ts, ks'⟩ := c
    unfold ExpiryQueue.insert at hb
    split at hb
    · rcases List.mem_cons.mp hb with h | h
      · exact Or.inr h
      · exact Or.inl h
    · split at hb
      · exact Or.inl hb
      · rcases List.mem_cons.mp hb with h | h
        · rw [h]; exact Or.inl (List.mem_cons_self _ _)
        · rcases ih h with h' | h'
          · exact Or.inl (List.mem_cons_of_mem _ h')
          · exact Or.inr h'

theorem ExpiryQueue.find_insert (q : ExpiryQueue) (e : Int) (ks : KeySet) :
    ∃ ks', ExpiryQueue.find (ExpiryQueue.insert q e ks) e = some ks' := by
  induction q with
  | nil => exact ⟨ks, by simp [ExpiryQueue.insert, ExpiryQueue.find]⟩
  | cons c rest ih =>
    obtain ⟨ts, ks0⟩ := c
    unfold ExpiryQueue.insert
    split
    · exact ⟨ks, by simp [ExpiryQueue.find]⟩
    · split
      · next h => exact ⟨ks0, by simp [ExpiryQueue.find, h]⟩
      · next h =>
        obtain ⟨ks', hk⟩ := ih
        exact ⟨ks', by simp [ExpiryQueue.find, Ne.symm h, hk]⟩

theorem ExpiryQueue.mem_modify_of_find (q : ExpiryQueue) (e : Int)
    (f : KeySet → KeySet) (ks : KeySet) (h : ExpiryQueue.find q e = some ks) :
    (e, f ks) ∈ ExpiryQueue.modify q e f := by
  induction q with
  | nil => simp [ExpiryQueue.find] at h
  | cons c rest ih =>
    obtain ⟨ts, ks0⟩ := c
    unfold ExpiryQueue.find at h
    unfold ExpiryQueue.modify
    split at h
    · next hts =>
      cases h
      simp [hts]
    · next hts =>
      simp only [hts, if_false]
      exact List.mem_cons_of_mem _ (ih h)

theorem ExpiryQueue.mem_modify_of_mem (q : ExpiryQueue) (e : Int)
    (f : KeySet → KeySet) (ts : Int) (ks : KeySet) (h : (ts, ks) ∈ q) :
    (ts, ks) ∈ ExpiryQueue.modify q e f ∨ (ts, f ks) ∈ ExpiryQueue.modify q e f := by
  induction q with
  | nil => simp at h
  | cons c rest ih =>
    obtain ⟨ts0, ks0⟩ := c
    unfold ExpiryQueue.modify
    rcases List.mem_cons.mp h with h0 | h0
    · cases h0
      split
      · exact Or.inr (List.mem_cons_self _ _)
      · exact Or.inl (List.mem_cons_self _ _)
    · split
      · exact Or.inl (List.mem_cons_of_mem _ h0)
      · rcases ih h0 with h1 | h1
        · exact Or.inl (List.mem_cons_of_mem _ h1)
        · exact Or.inr (List.mem_cons_of_mem _ h1)

theorem ExpiryQueue.fst_mem_of_mem_modify (q : ExpiryQueue) (e : Int)
    (f : KeySet → KeySet) (b : Int × KeySet) (h : b ∈ ExpiryQueue.modify q e f) :
    ∃ ks, (b.1, ks) ∈ q := by
  induction q with
  | nil => simp [ExpiryQueue.modify] at h
  | cons c rest ih =>
    obtain ⟨ts0, ks0⟩ := c
    unfold ExpiryQueue.modify at h
    split at h
    · rcases List.mem_cons.mp h with h0 | h0
      · rw [h0]; exact ⟨ks0, List.mem_cons_self _ _⟩
      · exact ⟨b.2, List.mem_cons_of_mem _ h0⟩
    · rcases List.mem_cons.mp h with h0 | h0
      · rw [h0]; exact ⟨ks0, List.mem_cons_self _ _⟩
      · obtain ⟨ks, hk⟩ := ih h0
        exact ⟨ks, List.mem_cons_of_mem _ hk⟩

namespace ExpireMap

/-! ## Index invariants along a sequence of `put`s of fresh keys -/

theorem put_queue_fresh (m : ExpireMap) (now : Int) (key : Key) (value : Value)
    (timeoutMs : Int) (hs : m._shutdown = false) (ht : 0 < timeoutMs)
    (hfresh : KVStore.find m._data_table key = none) :
    (put m now key value timeoutMs)._expiry_queue =
      ExpiryQueue.modify
        (match ExpiryQueue.find m._expiry_queue (put_expiry now timeoutMs) with
          | none => ExpiryQueue.insert m._expiry_queue (put_expiry now timeoutMs) []
          | some _ => m._expiry_queue)
        (put_expiry now timeoutMs) (fun s => KeySet.insert s key) := by
  unfold put
  have : ¬ timeoutMs ≤ 0 := by omega
  simp [hs, this, hfresh]

theorem put_fresh_covered (m : ExpireMap) (now : Int) (key : Key) (value : Value)
    (timeoutMs : Int) (hs : m._shutdown = false) (ht : 0 < timeoutMs)
    (hfresh : KVStore.find m._data_table key = none) (hc : Covered m) :
    Covered (put m now key value timeoutMs) := by
  intro k tv hk
  rw [put_queue_fresh m now key value timeoutMs hs ht hfresh]
  by_cases hkk : k = key
  · subst hkk
    rw [put_find_self m now k value timeoutMs hs ht] at hk
    cases hk
    show ∃ ks, (put_expiry now timeoutMs, ks) ∈ _ ∧ k ∈ ks
    split
    · obtain ⟨ks', hks'⟩ := ExpiryQueue.find_insert m._expiry_queue (put_expiry now timeoutMs) []
      exact ⟨_, ExpiryQueue.mem_modify_of_find _ _ _ _ hks', KeySet.mem_insert_self _ _⟩
    · next ks' hks' =>
      exact ⟨_, ExpiryQueue.mem_modify_of_find _ _ _ _ hks', KeySet.mem_insert_self _ _⟩
  · rw [put_find_ne m now key value timeoutMs k hkk] at hk
    obtain ⟨ks, hmem, hin⟩ := hc k tv hk
    have hmem' : (tv.expiry, ks) ∈
        (match ExpiryQueue.find m._expiry_queue (put_expiry now timeoutMs) with
          | none => ExpiryQueue.insert m._expiry_queue (put_expiry now timeoutMs) []
          | some _ => m._expiry_queue) := by
      split
      · exact ExpiryQueue.mem_insert_bucket_of_mem _ _ _ _ hmem
      · exact hmem
    rcases ExpiryQueue.mem_modify_of_mem _ (put_expiry now timeoutMs)
        (fun s => KeySet.insert s key) _ _ hmem' with h | h
    · exact ⟨ks, h, hin⟩
    · exact ⟨_, h, KeySet.mem_insert_of_mem _ _ _ hin⟩

theorem put_fresh_backed (m : ExpireMap) (now : Int) (key : Key) (value : Value)
    (timeoutMs : Int) (hs : m._shutdown = false) (ht : 0 < timeoutMs)
    (hfresh : KVStore.find m._data_table key = none) (hb : Backed m) :
    Backed (put m now key value timeoutMs) := by
  intro b hmem
  rw [put_queue_fresh m now key value timeoutMs hs ht hfresh] at hmem
  obtain ⟨ks, hks⟩ := ExpiryQueue.fst_mem_of_mem_modify _ _ _ _ hmem
  have hcase : (b.1, ks) ∈ m._expiry_queue ∨ b.1 = put_expiry now timeoutMs := by
    split at hks
    · rcases ExpiryQueue.mem_of_mem_insert _ _ _ _ hks with h | h
      · exact Or.inl h
      · exact Or.inr (congrArg Prod.fst h)
    · exact Or.inl hks
  rcases hcase with h | h
  · obtain ⟨k, tv, hk, he⟩ := hb _ h
    have hkk : k ≠ key := by
      intro e
      subst e
      rw [hfresh] at hk
      exact absurd hk (by simp)
    exact ⟨k, tv, by rw [put_find_ne m now key value timeoutMs k hkk]; exact hk, he⟩
  · exact ⟨key, ⟨value, put_expiry now timeoutMs⟩,
      put_find_self m now key value timeoutMs hs ht, h.symm⟩

/-! ## A sweep later than every bucket drains the queue -/

theorem evict_while_drain (clock : Nat → Int) (q : ExpiryQueue)
    (hq : ∀ b ∈ q, ∀ i, b.1 < clock i) (i : Nat) (tbl : KVStore) (k : Key)
    (tv : TimedValue) (ks : KeySet) (hf : KVStore.find tbl k = some tv)
    (hmem : (tv.expiry, ks) ∈ q) (hk : k ∈ ks) :
    KVStore.find (_evict_while false clock q i (clock i) tbl).1 k = none := by
  induction q generalizing i tbl with
  | nil => simp at hmem
  | cons b rest ih =>
    obtain ⟨ts, ks0⟩ := b
    have hlt : ts < clock i := hq (ts, ks0) (List.mem_cons_self _ _) i
    unfold _evict_while
    simp only [Bool.not_false, Bool.true_and, decide_eq_true_eq, hlt, if_true]
    cases hres : KVStore.find
        (_evict_while false clock rest (i + 1) (clock (i + 1)) (_evict_for tbl ts ks0)).1 k with
    | none => rfl
    | some tv' =>
      exfalso
      have h1 := evict_while_only_erases _ _ _ _ _ _ _ _ hres
      have h2 := evict_for_only_erases _ _ _ _ _ h1
      rw [hf] at h2
      cases h2
      rcases List.mem_cons.mp hmem with h0 | h0
      · cases h0
        rw [evict_for_erases _ _ _ _ _ hk hf rfl] at h1
        exact absurd h1 (by simp)
      · have h3 := ih (fun b hb => hq b (List.mem_cons_of_mem _ hb)) (i + 1) _ h1 h0
        rw [h3] at hres
        exact absurd hres (by simp)

theorem evict_drain (m : ExpireMap) (hs : m._shutdown = false) (hc : Covered m)
    (clock : Nat → Int) (hq : ∀ b ∈ m._expiry_queue, ∀ i, b.1 < clock i) (k : Key) :
    KVStore.find (_evict m clock).1._data_table k = none := by
  cases hres : KVStore.find (_evict m clock).1._data_table k with
  | none => rfl
  | some tv =>
    exfalso
    have h0 : KVStore.find
        (_evict_while m._shutdown clock m._expiry_queue 0 (clock 0) m._data_table).1 k =
          some tv := hres
    have h1 := evict_while_only_erases _ _ _ _ _ _ _ _ h0
    obtain ⟨ks, hmem, hk⟩ := hc k tv h1
    rw [hs] at h0
    rw [evict_while_drain clock _ hq 0 _ k tv ks h1 hmem hk] at h0
    exact absurd h0 (by simp)

end ExpireMap

theorem KVStore.size_assign_fresh (tbl : KVStore) (k : Key) (tv : TimedValue)
    (h : KVStore.find tbl k = none) :
    KVStore.size (KVStore.assign tbl k tv) = KVStore.size tbl + 1 := by
  induction tbl with
  | nil => rfl
  | cons kv rest ih =>
    obtain ⟨k0, tv0⟩ := kv
    by_cases h0 : k0 = k
    · subst h0
      rw [KVStore.find_cons_self] at h
      exact absurd h (by simp)
    · rw [KVStore.find_cons_ne _ _ _ _ h0] at h
      rw [KVStore.assign_cons_ne _ _ _ _ _ h0]
      have := ih h
      unfold KVStore.size at this ⊢
      simp only [List.length_cons, this]

namespace ExpireMap

theorem covered_empty : Covered empty := by
  intro k tv h
  simp [empty, KVStore.find] at h

theorem backed_empty : Backed empty := by
  intro b hb
  simp [empty] at hb

theorem run_puts_fresh (ps : List PutCall) (m : ExpireMap) (hs : m._shutdown = false)
    (hnd : (ps.map PutCall.key).Nodup)
    (hfresh : ∀ p ∈ ps, KVStore.find m._data_table p.key = none)
    (ht : ∀ p ∈ ps, 0 < p.timeoutMs) (hc : Covered m) (hb : Backed m) :
    Covered (run m (ps.map PutCall.toOp)) ∧ Backed (run m (ps.map PutCall.toOp)) ∧
      KVStore.size (run m (ps.map PutCall.toOp))._data_table =
        KVStore.size m._data_table + ps.length := by
  induction ps generalizing m with
  | nil => exact ⟨hc, hb, rfl⟩
  | cons p rest ih =>
    have hp : KVStore.find m._data_table p.key = none := hfresh p (List.mem_cons_self _ _)
    have htp : 0 < p.timeoutMs := ht p (List.mem_cons_self _ _)
    rw [List.map_cons, List.nodup_cons] at hnd
    have hfresh' : ∀ p' ∈ rest,
        KVStore.find (put m p.now p.key p.value p.timeoutMs)._data_table p'.key = none := by
      intro p' hp'
      have hne : p'.key ≠ p.key := by
        intro e
        exact hnd.1 (e ▸ List.mem_map_of_mem PutCall.key hp')
      rw [put_find_ne _ _ _ _ _ _ hne]
      exact hfresh p' (List.mem_cons_of_mem _ hp')
    have hs' : (put m p.now p.key p.value p.timeoutMs)._shutdown = false := by
      rw [put_shutdown]; exact hs
    obtain ⟨h1, h2, h3⟩ := ih (put m p.now p.key p.value p.timeoutMs) hs' hnd.2 hfresh'
      (fun p' hp' => ht p' (List.mem_cons_of_mem _ hp'))
      (put_fresh_covered m _ _ _ _ hs htp hp hc) (put_fresh_backed m _ _ _ _ hs htp hp hb)
    refine ⟨h1, h2, ?_⟩
    have hrun : run m ((p :: rest).map PutCall.toOp) =
        run (put m p.now p.key p.value p.timeoutMs) (rest.map PutCall.toOp) := rfl
    rw [hrun, h3, put_data m _ _ _ _ hs htp, KVStore.size_assign_fresh _ _ _ hp,
      List.length_cons]
    omega

end ExpireMap

theorem KVStore.mem_of_find (tbl : KVStore) (k : Key) (tv : TimedValue)
    (h : KVStore.find tbl k = some tv) : (k, tv) ∈ tbl := by
  induction tbl with
  | nil => simp [KVStore.find] at h
  | cons kv rest ih =>
    obtain ⟨k0, tv0⟩ := kv
    by_cases h0 : k0 = k
    · subst h0
      rw [KVStore.find_cons_self] at h
      cases h
      exact List.mem_cons_self _ _
    · rw [KVStore.find_cons_ne _ _ _ _ h0] at h
      exact List.mem_cons_of_mem _ (ih h)

namespace ExpireMap

theorem run_sweeps_only_erases (clocks : List (Nat → Int)) (m : ExpireMap) (k : Key)
    (tv : TimedValue)
    (hf : KVStore.find (run m (clocks.map Op.evict))._data_table k = some tv) :
    KVStore.find m._data_table k = some tv := by
  induction clocks generalizing m with
  | nil => exact hf
  | cons c rest ih =>
    have h1 := ih (step m (Op.evict c)) hf
    exact evict_while_only_erases _ _ _ _ _ _ _ _ h1

theorem quiet_sweeps (k : Key) (bound : Int) (clocks : List (Nat → Int))
    (h : ∀ c ∈ clocks, ∀ i, c i ≤ bound) :
    ∀ op ∈ clocks.map Op.evict, Op.Quiet k bound op := by
  intro op hop
  obtain ⟨c, hc, rfl⟩ := List.mem_map.mp hop
  exact h c hc

/-! ## The claims -/

/-- C1, the claim fails where the expiry does not fit in 64 bits: `put(7, 1, t)` with
`t = 9223372036854775807` (`LONG_MAX`) at clock time `n = 1700000000000000` on a
fresh map stores the expiry 1699999999999000, and `get(7)` at the clock time `n`,
which lies between `n` and `n + 1000 * t`, returns 0 and not 1. -/
theorem round_trip_fails_on_overflow :
    (empty._shutdown = false ∧ (0 : Int) < 9223372036854775807 ∧
      (1700000000000000 : Int) ≤ 1700000000000000 ∧
      (1700000000000000 : Int) ≤ 1700000000000000 + 1000 * 9223372036854775807) ∧
      KVStore.find (put empty 1700000000000000 7 1 9223372036854775807)._data_table 7 =
        some ⟨1, 1699999999999000⟩ ∧
      get (put empty 1700000000000000 7 1 9223372036854775807) 1700000000000000 7 = 0 ∧
      ¬ (get (put empty 1700000000000000 7 1 9223372036854775807) 1700000000000000 7 = 1) := by
  decide

/-- C1 (amended). On a map that is not shut down, `put(k, v, t)` with `t > 0`
at clock time `n` whose expiry `n + 1000 * t` is representable in 64 bits,
followed by any calls that are neither a `put` nor a `remove` of `k` (sweeps among
them take clock samples up to `n'`), followed by `get(k)` at a clock time
`n' ≤ n + 1000 * t`, returns `v`. -/
theorem put_get_round_trip (m : ExpireMap) (hs : m._shutdown = false) (n n' : Int)
    (k : Key) (v : Value) (t : Int) (ht : 0 < t) (hfit : Fits64 (n + 1000 * t))
    (hn' : n' ≤ n + 1000 * t) (ops : List Op) (hq : ∀ op ∈ ops, Op.Quiet k n' op) :
    get (run (put m n k v t) ops) n' k = v := by
  have hf := put_find_self m n k v t hs ht
  rw [put_expiry_of_fits n t hfit] at hf
  have hk := run_keep ops (put m n k v t) k n' hq _ hf hn'
  have hs' : (run (put m n k v t) ops)._shutdown = false := by
    rw [run_shutdown, put_shutdown]; exact hs
  exact get_of_find _ n' k _ hs' hk hn'

/-- Witness of the amended C1: a `put` at time 0 with timeout 50 ms, calls on other
keys and a sweep in between, and a `get` at 10 ms. -/
theorem put_get_round_trip_witness :
    get (run (put empty 0 7 1 50) [Op.put 5 8 2 1, Op.remove 9, Op.evict (fun _ => 9000)])
      10000 7 = 1 :=
  put_get_round_trip empty rfl 0 10000 7 1 50 (by decide) (by decide) (by decide)
    [Op.put 5 8 2 1, Op.remove 9, Op.evict (fun _ => 9000)]
    (by
      intro op hop
      simp only [List.mem_cons, List.mem_singleton, List.not_mem_nil, or_false] at hop
      rcases hop with h | h | h
      · subst h; show (8 : Int) ≠ 7; decide
      · subst h; show (9 : Int) ≠ 7; decide
      · subst h; intro i; show (9000 : Int) ≤ 10000; decide)

/-- C2 (an expired value is never observed). In every state, for a key whose data
table entry has an expiry strictly before the current time, `get` returns
`(Value)NULL`, and it does so after any number of sweeps as well. Scenario:
`put(k, 1, 50)` at time 0 gives `get(k) = 1` at 10 ms and `NULL` at 60 ms with no
sweep in between. -/
theorem get_expired_is_absent (m : ExpireMap) (now : Int) (k : Key) (tv : TimedValue)
    (hf : KVStore.find m._data_table k = some tv) (hexp : tv.expiry < now)
    (clocks : List (Nat → Int)) :
    get m now k = NULL ∧ get (run m (clocks.map Op.evict)) now k = NULL ∧
      (∀ key : Key, get (put empty 0 key 1 50) 10000 key = 1 ∧
        get (put empty 0 key 1 50) 60000 key = NULL) := by
  refine ⟨get_of_expired m now k tv hf hexp, ?_, ?_⟩
  · cases hres : KVStore.find (run m (clocks.map Op.evict))._data_table k with
    | none => exact get_of_absent _ _ _ hres
    | some tv' =>
      have h1 := run_sweeps_only_erases clocks m k tv' hres
      rw [hf] at h1
      cases h1
      exact get_of_expired _ now k tv hres hexp
  · intro key
    have hf0 := put_find_self empty 0 key 1 50 rfl (by decide)
    have he : put_expiry 0 50 = 50000 := by decide
    rw [he] at hf0
    have hs0 : (put empty 0 key 1 50)._shutdown = false := by rw [put_shutdown]; rfl
    exact ⟨get_of_find _ 10000 key _ hs0 hf0 (by decide),
      get_of_expired _ 60000 key _ hf0 (by decide)⟩

/-- Witness of C2: an entry with expiry 50000 read at time 60000, before and after
a sweep. -/
theorem get_expired_is_absent_witness :
    get ⟨[(3, ⟨9, 50000⟩)], [(50000, [3])], false⟩ 60000 3 = NULL ∧
      get (run ⟨[(3, ⟨9, 50000⟩)], [(50000, [3])], false⟩
        ([fun _ => 55000].map Op.evict)) 60000 3 = NULL :=
  have h := get_expired_is_absent ⟨[(3, ⟨9, 50000⟩)], [(50000, [3])], false⟩ 60000 3
    ⟨9, 50000⟩ (by decide) (by decide) [fun _ => 55000]
  ⟨h.1, h.2.1⟩


/-- C3, the claim fails on a map that is shut down: `put(7, 1, 50)` at clock time
1700000000000000 is ignored, and `get(7)` at the clock time 1700000000050000 of the
expiry returns 0 and not 1. -/
theorem inclusive_expiry_fails_after_shutdown :
    (0 : Int) < 50 ∧
      put_expiry 1700000000000000 50 = 1700000000050000 ∧
      put ⟨[], [], true⟩ 1700000000000000 7 1 50 = ⟨[], [], true⟩ ∧
      get (put ⟨[], [], true⟩ 1700000000000000 7 1 50) 1700000000050000 7 = 0 ∧
      ¬ (get (put ⟨[], [], true⟩ 1700000000000000 7 1 50) 1700000000050000 7 = 1) := by
  decide

/-- C3 (amended). On a map that is not shut down, after `put(k, v, t)` with `t > 0`
at clock time `n` and any sweeps whose clock samples are at most the expiry `put`
computed, `get(k)` at the clock time equal to that expiry returns `v`, as it does
at every earlier time; at every time strictly greater than the expiry it returns
`(Value)NULL`. The expiry `put` computed is `n + 1000 * t` in 64-bit arithmetic,
which is `n + 1000 * t` whenever that is representable in 64 bits. -/
theorem expiry_is_inclusive (m : ExpireMap) (hs : m._shutdown = false) (n : Int)
    (k : Key) (v : Value) (t : Int) (ht : 0 < t)
    (clocks : List (Nat → Int)) (hclk : ∀ c ∈ clocks, ∀ i, c i ≤ put_expiry n t) :
    KVStore.find (put m n k v t)._data_table k = some ⟨v, put_expiry n t⟩ ∧
      get (run (put m n k v t) (clocks.map Op.evict)) (put_expiry n t) k = v ∧
      (∀ n', n' ≤ put_expiry n t →
        get (run (put m n k v t) (clocks.map Op.evict)) n' k = v) ∧
      (∀ n', put_expiry n t < n' →
        get (run (put m n k v t) (clocks.map Op.evict)) n' k = NULL) ∧
      (Fits64 (n + 1000 * t) → put_expiry n t = n + 1000 * t) := by
  have hf := put_find_self m n k v t hs ht
  have hk := run_keep (clocks.map Op.evict) (put m n k v t) k (put_expiry n t)
    (quiet_sweeps k _ clocks hclk) _ hf (le_refl _)
  have hs' : (run (put m n k v t) (clocks.map Op.evict))._shutdown = false := by
    rw [run_shutdown, put_shutdown]; exact hs
  refine ⟨hf, get_of_find _ _ k _ hs' hk (le_refl _), ?_, ?_,
    fun hfit => put_expiry_of_fits n t hfit⟩
  · intro n' hn'
    exact get_of_find _ n' k _ hs' hk hn'
  · intro n' hn'
    exact get_of_expired _ n' k _ hk hn'

/-- Witness of the amended C3: `put(7, 1, 50)` at time 0, sweeps at 20 ms and at the
expiry 50 ms, then `get(7)` at 50000 and at 50001 microseconds. -/
theorem expiry_is_inclusive_witness :
    get (run (put empty 0 7 1 50) ([fun _ => 20000, fun _ => 50000].map Op.evict))
        50000 7 = 1 ∧
      get (run (put empty 0 7 1 50) ([fun _ => 20000, fun _ => 50000].map Op.evict))
        50001 7 = NULL :=
  have h := expiry_is_inclusive empty rfl 0 7 1 50 (by decide)
    [fun _ => 20000, fun _ => 50000]
    (by
      intro c hc
      simp only [List.mem_cons, List.mem_singleton, List.not_mem_nil, or_false] at hc
      rcases hc with h | h
      · subst h; intro i; show (20000 : Int) ≤ put_expiry 0 50; decide
      · subst h; intro i; show (50000 : Int) ≤ put_expiry 0 50; decide)
  ⟨h.2.1, h.2.2.2.1 50001 (by decide)⟩

/-- C4, the claim fails in two places. Where the expiry does not fit in 64 bits:
`put(7, 1, 100)` at clock time 1700000000000000 followed by `put(7, 2, t2)` with
`t2 = 9223372036854775807` (`LONG_MAX`) at clock time `n2 = 1700000000000010` stores
the expiry 1699999999999010, and `get(7)` at the clock time `n2` returns 0 and not
2. On a map that is shut down: both `put` calls are ignored and `get(7)` returns 0. -/
theorem overwrite_fails_on_overflow :
    ((0 : Int) < 100 ∧ (0 : Int) < 9223372036854775807 ∧
      (1700000000000010 : Int) ≤ 1700000000000010 + 1000 * 9223372036854775807) ∧
      KVStore.find (put (put empty 1700000000000000 7 1 100)
        1700000000000010 7 2 9223372036854775807)._data_table 7 =
        some ⟨2, 1699999999999010⟩ ∧
      ¬ (get (put (put empty 1700000000000000 7 1 100)
        1700000000000010 7 2 9223372036854775807) 1700000000000010 7 = 2) ∧
      ¬ (get (put (put ⟨[], [], true⟩ 1700000000000000 7 1 100)
        1700000000000010 7 2 1) 1700000000000010 7 = 2) := by
  decide

/-- C4 (amended). On a map that is not shut down, `put(k, v1, t1)`
followed by `put(k, v2, t2)` with `t2 > 0` at clock time `n2` (expiry
`n2 + 1000 * t2` representable in 64 bits), followed by any number of sweeps whose
clock samples are at most `n2 + 1000 * t2`, leaves `get(k) = v2` at every time up
to `n2 + 1000 * t2`: the sweeps do not delete the entry, whatever bucket of the
first `put` they process. -/
theorem overwrite_keeps_second_value (m : ExpireMap) (hs : m._shutdown = false)
    (k : Key) (v1 v2 : Value) (t1 t2 n1 n2 : Int) (ht2 : 0 < t2)
    (hfit : Fits64 (n2 + 1000 * t2)) (clocks : List (Nat → Int))
    (hclk : ∀ c ∈ clocks, ∀ i, c i ≤ n2 + 1000 * t2) (n' : Int)
    (hn' : n' ≤ n2 + 1000 * t2) :
    get (run (put (put m n1 k v1 t1) n2 k v2 t2) (clocks.map Op.evict)) n' k = v2 := by
  have hs1 : (put m n1 k v1 t1)._shutdown = false := by rw [put_shutdown]; exact hs
  have hf := put_find_self (put m n1 k v1 t1) n2 k v2 t2 hs1 ht2
  rw [put_expiry_of_fits n2 t2 hfit] at hf
  have hk := run_keep (clocks.map Op.evict) _ k (n2 + 1000 * t2)
    (quiet_sweeps k _ clocks hclk) _ hf (le_refl _)
  have hs' : (run (put (put m n1 k v1 t1) n2 k v2 t2) (clocks.map Op.evict))._shutdown
      = false := by
    rw [run_shutdown, put_shutdown]; exact hs1
  exact get_of_find _ n' k _ hs' hk hn'

/-- Witness of the amended C4: `put(7, 1, 100)` at time 0, then `put(7, 2, 1)` at
time 10 with a shorter timeout, a sweep at time 1000, and `get(7)` at the new expiry
1010. -/
theorem overwrite_keeps_second_value_witness :
    get (run (put (put empty 0 7 1 100) 10 7 2 1) ([fun _ => 1000].map Op.evict))
      1010 7 = 2 :=
  overwrite_keeps_second_value empty rfl 7 1 2 100 1 0 10 (by decide) (by decide)
    [fun _ => 1000]
    (by
      intro c hc
      simp only [List.mem_singleton] at hc
      subst hc; intro i; show (1000 : Int) ≤ 10 + 1000 * 1; decide)
    1010 (by decide)

/-- C5 (explicit removal). In every state and for every key `k`, after `remove(k)`
the key is absent from the data table and `get(k)` returns `(Value)NULL` at every
clock time, whatever the expiry of the removed entry was. -/
theorem remove_makes_absent (m : ExpireMap) (k : Key) :
    KVStore.find (remove m k)._data_table k = none ∧
      ∀ now, get (remove m k) now k = NULL := by
  have h : KVStore.find (remove m k)._data_table k = none := by
    rw [remove_data, KVStore.find_erase_self]
  exact ⟨h, fun now => get_of_absent _ now k h⟩

/-- C6 (bulk expiry). Starting from the empty map, after `put` of pairwise distinct
keys, each with a timeout in `1..T`, the data table holds one entry per key, and
one sweep whose clock samples are all strictly later than every stored expiry
leaves the data table empty: `debug_size() = 0` and `get` returns `(Value)NULL` for
every one of the keys. -/
theorem bulk_expiry (T : Int) (ps : List PutCall) (hkeys : (ps.map PutCall.key).Nodup)
    (ht : ∀ p ∈ ps, 1 ≤ p.timeoutMs ∧ p.timeoutMs ≤ T) (clock : Nat → Int)
    (hlate : ∀ kv ∈ (run empty (ps.map PutCall.toOp))._data_table,
      ∀ i, kv.2.expiry < clock i) :
    KVStore.size (run empty (ps.map PutCall.toOp))._data_table = ps.length ∧
      (_evict (run empty (ps.map PutCall.toOp)) clock).1._data_table = [] ∧
      debug_size (_evict (run empty (ps.map PutCall.toOp)) clock).1 = 0 ∧
      ∀ p ∈ ps, ∀ now,
        get (_evict (run empty (ps.map PutCall.toOp)) clock).1 now p.key = NULL := by
  obtain ⟨hc, hb, hsz⟩ := run_puts_fresh ps empty rfl hkeys (fun _ _ => rfl)
    (fun p hp => by have := (ht p hp).1; omega) covered_empty backed_empty
  have hs : (run empty (ps.map PutCall.toOp))._shutdown = false := by
    rw [run_shutdown]; rfl
  have hq : ∀ b ∈ (run empty (ps.map PutCall.toOp))._expiry_queue, ∀ i, b.1 < clock i := by
    intro b hbm i
    obtain ⟨k, tv, hk, he⟩ := hb b hbm
    rw [← he]
    exact hlate (k, tv) (KVStore.mem_of_find _ _ _ hk) i
  have hnone := evict_drain _ hs hc clock hq
  have hnil := KVStore.eq_nil_of_find_none _ hnone
  refine ⟨?_, hnil, ?_, ?_⟩
  · rw [hsz]
    simp [empty, KVStore.size]
  · unfold debug_size
    rw [hnil]
    decide
  · intro p _ now
    exact get_of_absent _ now p.key (hnone p.key)

/-- Witness of C6: three keys with timeouts 5, 1 and 3 ms put at times 0, 3 and 4,
swept at 10 ms. -/
theorem bulk_expiry_witness :
    KVStore.size (run empty ([⟨0, 1, 10, 5⟩, ⟨3, 2, 20, 1⟩, ⟨4, 3, 30, 3⟩].map
        PutCall.toOp))._data_table = 3 ∧
      debug_size (_evict (run empty ([⟨0, 1, 10, 5⟩, ⟨3, 2, 20, 1⟩, ⟨4, 3, 30, 3⟩].map
        PutCall.toOp)) (fun _ => 10000)).1 = 0 :=
  have hl : ∀ kv ∈ (run empty ([⟨0, 1, 10, 5⟩, ⟨3, 2, 20, 1⟩, ⟨4, 3, 30, 3⟩].map
      PutCall.toOp))._data_table, kv.2.expiry < 10000 := by decide
  have h := bulk_expiry 5 [⟨0, 1, 10, 5⟩, ⟨3, 2, 20, 1⟩, ⟨4, 3, 30, 3⟩] (by decide)
    (by decide) (fun _ => 10000) (fun kv hkv _ => hl kv hkv)
  ⟨h.1, h.2.2.1⟩


/-- C7 (reclamation never removes a still-valid entry). For every state, whatever
its data table and expiry queue hold, and every sweep whose clock samples are all
at most `now`, `_evict` leaves every data table entry whose expiry is at least
`now` unchanged (same value, same expiry). Within the sweep, processing a bucket
keeps the entry of every key whose current expiry differs from the timestamp of
that bucket. -/
theorem evict_keeps_valid_entries (m : ExpireMap) (clock : Nat → Int) (now : Int)
    (hclk : ∀ i, clock i ≤ now) (k : Key) (tv : TimedValue)
    (hf : KVStore.find m._data_table k = some tv) (hexp : now ≤ tv.expiry) :
    KVStore.find (_evict m clock).1._data_table k = some tv ∧
      (∀ (tbl : KVStore) (remove_expiry : Int) (remove_keys : KeySet) (k' : Key)
        (tv' : TimedValue), KVStore.find tbl k' = some tv' → tv'.expiry ≠ remove_expiry →
          KVStore.find (_evict_for tbl remove_expiry remove_keys) k' = some tv') :=
  ⟨evict_keep m clock now hclk k tv hf hexp,
    fun tbl remove_expiry remove_keys k' tv' h1 h2 =>
      evict_for_keep remove_expiry remove_keys tbl k' tv' h1 h2⟩

/-- Witness of C7: key 7 was overwritten (expiry 9000) while the queue still pairs
it with the stale timestamp 100; key 8 expired at 200. A sweep at time 5000 erases
the entry of key 8 and keeps the entry of key 7. -/
theorem evict_keeps_valid_entries_witness :
    KVStore.find (_evict ⟨[(7, ⟨2, 9000⟩), (8, ⟨3, 200⟩)],
        [(100, [7]), (200, [8]), (9000, [7])], false⟩ (fun _ => 5000)).1._data_table 7 =
        some ⟨2, 9000⟩ ∧
      KVStore.find (_evict ⟨[(7, ⟨2, 9000⟩), (8, ⟨3, 200⟩)],
        [(100, [7]), (200, [8]), (9000, [7])], false⟩ (fun _ => 5000)).1._data_table 8 =
        none :=
  ⟨(evict_keeps_valid_entries ⟨[(7, ⟨2, 9000⟩), (8, ⟨3, 200⟩)],
      [(100, [7]), (200, [8]), (9000, [7])], false⟩ (fun _ => 5000) 5000
      (fun _ => le_refl (5000 : Int)) 7 ⟨2, 9000⟩ (by decide) (by decide)).1, by decide⟩

/-- C8 (non-positive timeout is a no-op). For every state, key, value and timeout
`t ≤ 0`, `put(k, v, t)` returns the state unchanged: the data table and the expiry
queue are exactly as they were, a prior entry of `k` keeps its value and expiry,
and `get` of every key at every time is unchanged. -/
theorem put_nonpositive_timeout_noop (m : ExpireMap) (now : Int) (k : Key) (v : Value)
    (t : Int) (ht : t ≤ 0) :
    put m now k v t = m ∧
      (put m now k v t)._data_table = m._data_table ∧
      (put m now k v t)._expiry_queue = m._expiry_queue ∧
      KVStore.find (put m now k v t)._data_table k = KVStore.find m._data_table k ∧
      ∀ now' k', get (put m now k v t) now' k' = get m now' k' := by
  have h := put_noop m now k v t (Or.inr ht)
  rw [h]
  exact ⟨rfl, rfl, rfl, rfl, fun _ _ => rfl⟩

/-- Witness of C8: `put(7, 99, 0)` and `put(7, 99, -5)` on a map holding key 7. -/
theorem put_nonpositive_timeout_noop_witness :
    put (put empty 0 7 1 50) 10 7 99 0 = put empty 0 7 1 50 ∧
      put (put empty 0 7 1 50) 10 7 99 (-5) = put empty 0 7 1 50 :=
  ⟨(put_nonpositive_timeout_noop (put empty 0 7 1 50) 10 7 99 0 (by decide)).1,
    (put_nonpositive_timeout_noop (put empty 0 7 1 50) 10 7 99 (-5) (by decide)).1⟩

/-- C9 (removing an absent key is a no-op). For every state and every key `k` that
is not in the data table, `remove(k)` returns the state unchanged (data table and
expiry queue alike); and for every state and key, `remove(k)` applied twice gives
the same state as `remove(k)` applied once. -/
theorem remove_absent_noop (m : ExpireMap) (k : Key)
    (h : KVStore.find m._data_table k = none) :
    remove m k = m ∧
      (remove m k)._data_table = m._data_table ∧
      (remove m k)._expiry_queue = m._expiry_queue ∧
      ∀ (m' : ExpireMap) (k' : Key), remove (remove m' k') k' = remove m' k' := by
  have hr := remove_of_absent m k h
  rw [hr]
  refine ⟨rfl, rfl, rfl, ?_⟩
  intro m' k'
  apply remove_of_absent
  rw [remove_data, KVStore.find_erase_self]

/-- Witness of C9: removing key 9, never inserted, from a map holding key 7. -/
theorem remove_absent_noop_witness :
    remove (put empty 0 7 1 50) 9 = put empty 0 7 1 50 :=
  (remove_absent_noop (put empty 0 7 1 50) 9 (by decide)).1

/-- C10 (mutations of one key do not affect other keys). For every state and keys
`k ≠ k'`, after `put(k, v, t)` and after `remove(k)` the data table entry of `k'`
(presence, value and expiry) is what it was before, and `get(k')` at any time
returns what it would have returned before the call. -/
theorem other_keys_unaffected (m : ExpireMap) (now : Int) (k k' : Key) (v : Value)
    (t : Int) (hne : k ≠ k') :
    KVStore.find (put m now k v t)._data_table k' = KVStore.find m._data_table k' ∧
      KVStore.find (remove m k)._data_table k' = KVStore.find m._data_table k' ∧
      (∀ now', get (put m now k v t) now' k' = get m now' k') ∧
      (∀ now', get (remove m k) now' k' = get m now' k') := by
  have h1 : KVStore.find (put m now k v t)._data_table k' = KVStore.find m._data_table k' :=
    put_find_ne m now k v t k' (Ne.symm hne)
  have h2 : KVStore.find (remove m k)._data_table k' = KVStore.find m._data_table k' := by
    rw [remove_data, KVStore.find_erase_ne _ _ _ (Ne.symm hne)]
  exact ⟨h1, h2, fun now' => get_congr _ _ now' k' (put_shutdown _ _ _ _ _) h1,
    fun now' => get_congr _ _ now' k' (remove_shutdown _ _) h2⟩

/-- Witness of C10: on a map holding keys 7 and 8, an overwrite of key 7 and a
removal of key 7 leave `get(8)` at 1. -/
theorem other_keys_unaffected_witness :
    get (put (put (put empty 0 7 1 50) 0 8 1 50) 5 7 4 1) 100 8 =
        get (put (put empty 0 7 1 50) 0 8 1 50) 100 8 ∧
      get (remove (put (put empty 0 7 1 50) 0 8 1 50) 7) 100 8 =
        get (put (put empty 0 7 1 50) 0 8 1 50) 100 8 :=
  have h := other_keys_unaffected (put (put empty 0 7 1 50) 0 8 1 50) 5 7 8 4 1 (by decide)
  ⟨h.2.2.1 100, h.2.2.2 100⟩

end ExpireMap

/-! ## Lookup in the expiry queue after an update -/

theorem KeySet.erase_of_not_mem (ks : KeySet) (k : Key) (h : k ∉ ks) :
    KeySet.erase ks k = ks := by
  unfold KeySet.erase
  rw [List.filter_eq_self]
  intro x hx
  have : x ≠ k := fun e => h (e ▸ hx)
  simpa using this

theorem KeySet.not_mem_erase (ks : KeySet) (k : Key) : k ∉ KeySet.erase ks k := by
  unfold KeySet.erase
  intro h
  have := (List.mem_filter.mp h).2
  simp at this

theorem KeySet.mem_erase_of_ne (ks : KeySet) (k x : Key) (hne : x ≠ k) :
    x ∈ KeySet.erase ks k ↔ x ∈ ks := by
  unfold KeySet.erase
  simp [List.mem_filter, hne]

theorem KeySet.insert_ne_nil (ks : KeySet) (k : Key) : KeySet.insert ks k ≠ [] := by
  intro h
  have := KeySet.mem_insert_self ks k
  rw [h] at this
  simp at this

theorem ExpiryQueue.find_bucket_cons_self (e : Int) (ks : KeySet) (rest : ExpiryQueue) :
    ExpiryQueue.find ((e, ks) :: rest) e = some ks := by
  simp [ExpiryQueue.find]

theorem ExpiryQueue.find_bucket_cons_ne (ts e : Int) (ks : KeySet) (rest : ExpiryQueue)
    (h : ts ≠ e) : ExpiryQueue.find ((ts, ks) :: rest) e = ExpiryQueue.find rest e := by
  simp [ExpiryQueue.find, h]

theorem ExpiryQueue.modify_cons_self (e : Int) (ks : KeySet) (rest : ExpiryQueue)
    (f : KeySet → KeySet) :
    ExpiryQueue.modify ((e, ks) :: rest) e f = (e, f ks) :: rest := by
  simp [ExpiryQueue.modify]

theorem ExpiryQueue.modify_cons_ne (ts e : Int) (ks : KeySet) (rest : ExpiryQueue)
    (f : KeySet → KeySet) (h : ts ≠ e) :
    ExpiryQueue.modify ((ts, ks) :: rest) e f = (ts, ks) :: ExpiryQueue.modify rest e f := by
  simp [ExpiryQueue.modify, h]

theorem ExpiryQueue.bucket_mem_of_find (q : ExpiryQueue) (e : Int) (ks : KeySet)
    (h : ExpiryQueue.find q e = some ks) : (e, ks) ∈ q := by
  induction q with
  | nil => simp [ExpiryQueue.find] at h
  | cons b rest ih =>
    obtain ⟨ts, ks0⟩ := b
    by_cases h0 : ts = e
    · subst h0
      rw [ExpiryQueue.find_bucket_cons_self] at h
      cases h
      exact List.mem_cons_self _ _
    · rw [ExpiryQueue.find_bucket_cons_ne _ _ _ _ h0] at h
      exact List.mem_cons_of_mem _ (ih h)

theorem ExpiryQueue.find_none_of_not_mem (q : ExpiryQueue) (e : Int)
    (h : ∀ b ∈ q, b.1 ≠ e) : ExpiryQueue.find q e = none := by
  cases hf : ExpiryQueue.find q e with
  | none => rfl
  | some ks => exact absurd rfl (h _ (ExpiryQueue.bucket_mem_of_find q e ks hf))

theorem ExpiryQueue.find_modify_self (q : ExpiryQueue) (e : Int) (f : KeySet → KeySet)
    (ks : KeySet) (h : ExpiryQueue.find q e = some ks) :
    ExpiryQueue.find (ExpiryQueue.modify q e f) e = some (f ks) := by
  induction q with
  | nil => simp [ExpiryQueue.find] at h
  | cons b rest ih =>
    obtain ⟨ts, ks0⟩ := b
    by_cases h0 : ts = e
    · subst h0
      rw [ExpiryQueue.find_bucket_cons_self] at h
      cases h
      rw [ExpiryQueue.modify_cons_self, ExpiryQueue.find_bucket_cons_self]
    · rw [ExpiryQueue.find_bucket_cons_ne _ _ _ _ h0] at h
      rw [ExpiryQueue.modify_cons_ne _ _ _ _ _ h0, ExpiryQueue.find_bucket_cons_ne _ _ _ _ h0]
      exact ih h

theorem ExpiryQueue.find_modify_ne (q : ExpiryQueue) (e e' : Int) (f : KeySet → KeySet)
    (hne : e' ≠ e) :
    ExpiryQueue.find (ExpiryQueue.modify q e f) e' = ExpiryQueue.find q e' := by
  induction q with
  | nil => rfl
  | cons b rest ih =>
    obtain ⟨ts, ks0⟩ := b
    by_cases h0 : ts = e
    · subst h0
      rw [ExpiryQueue.modify_cons_self, ExpiryQueue.find_bucket_cons_ne _ _ _ _ (Ne.symm hne),
        ExpiryQueue.find_bucket_cons_ne _ _ _ _ (Ne.symm hne)]
    · rw [ExpiryQueue.modify_cons_ne _ _ _ _ _ h0]
      by_cases h1 : ts = e'
      · subst h1
        rw [ExpiryQueue.find_bucket_cons_self, ExpiryQueue.find_bucket_cons_self]
      · rw [ExpiryQueue.find_bucket_cons_ne _ _ _ _ h1, ExpiryQueue.find_bucket_cons_ne _ _ _ _ h1]
        exact ih

theorem ExpiryQueue.modify_of_find_none (q : ExpiryQueue) (e : Int) (f : KeySet → KeySet)
    (h : ExpiryQueue.find q e = none) : ExpiryQueue.modify q e f = q := by
  induction q with
  | nil => rfl
  | cons b rest ih =>
    obtain ⟨ts, ks0⟩ := b
    by_cases h0 : ts = e
    · subst h0
      rw [ExpiryQueue.find_bucket_cons_self] at h
      exact absurd h (by simp)
    · rw [ExpiryQueue.find_bucket_cons_ne _ _ _ _ h0] at h
      rw [ExpiryQueue.modify_cons_ne _ _ _ _ _ h0, ih h]

theorem ExpiryQueue.modify_of_fixed (q : ExpiryQueue) (e : Int) (f : KeySet → KeySet)
    (ks : KeySet) (h : ExpiryQueue.find q e = some ks) (hf : f ks = ks) :
    ExpiryQueue.modify q e f = q := by
  induction q with
  | nil => rfl
  | cons b rest ih =>
    obtain ⟨ts, ks0⟩ := b
    by_cases h0 : ts = e
    · subst h0
      rw [ExpiryQueue.find_bucket_cons_self] at h
      cases h
      rw [ExpiryQueue.modify_cons_self, hf]
    · rw [ExpiryQueue.find_bucket_cons_ne _ _ _ _ h0] at h
      rw [ExpiryQueue.modify_cons_ne _ _ _ _ _ h0, ih h]

theorem ExpiryQueue.mem_erase_iff (q : ExpiryQueue) (e : Int) (b : Int × KeySet) :
    b ∈ ExpiryQueue.erase q e ↔ b ∈ q ∧ b.1 ≠ e := by
  unfold ExpiryQueue.erase
  simp [List.mem_filter]

theorem ExpiryQueue.find_erase_bucket_self (q : ExpiryQueue) (e : Int) :
    ExpiryQueue.find (ExpiryQueue.erase q e) e = none := by
  apply ExpiryQueue.find_none_of_not_mem
  intro b hb
  exact ((ExpiryQueue.mem_erase_iff q e b).mp hb).2

theorem ExpiryQueue.find_erase_bucket_ne (q : ExpiryQueue) (e e' : Int) (hne : e' ≠ e) :
    ExpiryQueue.find (ExpiryQueue.erase q e) e' = ExpiryQueue.find q e' := by
  induction q with
  | nil => rfl
  | cons b rest ih =>
    obtain ⟨ts, ks0⟩ := b
    have hrest : ExpiryQueue.find (List.filter (fun b => decide (b.1 ≠ e)) rest) e' =
        ExpiryQueue.find rest e' := ih
    by_cases h0 : ts = e
    · subst h0
      unfold ExpiryQueue.erase
      rw [List.filter_cons_of_neg (by simp), ExpiryQueue.find_bucket_cons_ne _ _ _ _ (Ne.symm hne)]
      exact hrest
    · unfold ExpiryQueue.erase
      rw [List.filter_cons_of_pos (by simpa using h0)]
      by_cases h1 : ts = e'
      · subst h1
        rw [ExpiryQueue.find_bucket_cons_self, ExpiryQueue.find_bucket_cons_self]
      · rw [ExpiryQueue.find_bucket_cons_ne _ _ _ _ h1, ExpiryQueue.find_bucket_cons_ne _ _ _ _ h1]
        exact hrest

theorem ExpiryQueue.mem_modify_cases (q : ExpiryQueue) (e : Int) (f : KeySet → KeySet)
    (b : Int × KeySet) (h : b ∈ ExpiryQueue.modify q e f) :
    b ∈ q ∨ ∃ ks, ExpiryQueue.find q e = some ks ∧ b = (e, f ks) := by
  induction q with
  | nil => simp [ExpiryQueue.modify] at h
  | cons c rest ih =>
    obtain ⟨ts, ks0⟩ := c
    by_cases h0 : ts = e
    · subst h0
      rw [ExpiryQueue.modify_cons_self] at h
      rcases List.mem_cons.mp h with h1 | h1
      · exact Or.inr ⟨ks0, ExpiryQueue.find_bucket_cons_self _ _ _, h1⟩
      · exact Or.inl (List.mem_cons_of_mem _ h1)
    · rw [ExpiryQueue.modify_cons_ne _ _ _ _ _ h0] at h
      rcases List.mem_cons.mp h with h1 | h1
      · rw [h1]
        exact Or.inl (List.mem_cons_self _ _)
      · rcases ih h1 with hm | ⟨ks, hm, hb⟩
        · exact Or.inl (List.mem_cons_of_mem _ hm)
        · exact Or.inr ⟨ks, by rw [ExpiryQueue.find_bucket_cons_ne _ _ _ _ h0]; exact hm, hb⟩

/-! ## The queue invariants are kept by every operation -/

theorem ExpiryQueue.sorted_cons (b : Int × KeySet) (rest : ExpiryQueue) :
    ExpiryQueue.Sorted (b :: rest) ↔ (∀ c ∈ rest, b.1 < c.1) ∧ ExpiryQueue.Sorted rest := by
  unfold ExpiryQueue.Sorted
  exact List.pairwise_cons

theorem ExpiryQueue.sorted_insert (q : ExpiryQueue) (e : Int) (ks : KeySet)
    (h : ExpiryQueue.Sorted q) : ExpiryQueue.Sorted (ExpiryQueue.insert q e ks) := by
  induction q with
  | nil =>
    unfold ExpiryQueue.insert
    rw [ExpiryQueue.sorted_cons]
    exact ⟨fun c hc => by simp at hc, h⟩
  | cons b rest ih =>
    obtain ⟨ts, ks0⟩ := b
    have h' := (ExpiryQueue.sorted_cons _ _).mp h
    unfold ExpiryQueue.insert
    split
    · next hlt =>
      rw [ExpiryQueue.sorted_cons]
      refine ⟨?_, h⟩
      intro c hc
      rcases List.mem_cons.mp hc with h1 | h1
      · rw [h1]; exact hlt
      · have := h'.1 c h1
        show e < c.1
        simp only at this
        omega
    · split
      · exact h
      · next hge hne =>
        rw [ExpiryQueue.sorted_cons]
        refine ⟨?_, ih h'.2⟩
        intro c hc
        rcases ExpiryQueue.mem_of_mem_insert _ _ _ _ hc with h1 | h1
        · exact h'.1 c h1
        · rw [h1]
          show ts < e
          omega

theorem ExpiryQueue.sorted_modify (q : ExpiryQueue) (e : Int) (f : KeySet → KeySet)
    (h : ExpiryQueue.Sorted q) : ExpiryQueue.Sorted (ExpiryQueue.modify q e f) := by
  induction q with
  | nil => exact h
  | cons b rest ih =>
    obtain ⟨ts, ks0⟩ := b
    have h' := (ExpiryQueue.sorted_cons _ _).mp h
    by_cases h0 : ts = e
    · subst h0
      rw [ExpiryQueue.modify_cons_self, ExpiryQueue.sorted_cons]
      exact ⟨h'.1, h'.2⟩
    · rw [ExpiryQueue.modify_cons_ne _ _ _ _ _ h0, ExpiryQueue.sorted_cons]
      refine ⟨?_, ih h'.2⟩
      intro c hc
      obtain ⟨ks, hks⟩ := ExpiryQueue.fst_mem_of_mem_modify _ _ _ _ hc
      exact h'.1 (c.1, ks) hks

theorem ExpiryQueue.sorted_erase (q : ExpiryQueue) (e : Int)
    (h : ExpiryQueue.Sorted q) : ExpiryQueue.Sorted (ExpiryQueue.erase q e) := by
  unfold ExpiryQueue.Sorted ExpiryQueue.erase at *
  exact List.Pairwise.filter _ h

theorem ExpiryQueue.noEmpty_modify (q : ExpiryQueue) (e : Int) (f : KeySet → KeySet)
    (hs : ExpiryQueue.Sorted q) (hq : ∀ b ∈ q, b.1 ≠ e → b.2 ≠ [])
    (hf : ∀ ks, f ks ≠ []) : ExpiryQueue.NoEmpty (ExpiryQueue.modify q e f) := by
  induction q with
  | nil =>
    intro b hb
    simp [ExpiryQueue.modify] at hb
  | cons c rest ih =>
    obtain ⟨ts, ks0⟩ := c
    have h' := (ExpiryQueue.sorted_cons _ _).mp hs
    by_cases h0 : ts = e
    · subst h0
      rw [ExpiryQueue.modify_cons_self]
      intro b hb
      rcases List.mem_cons.mp hb with h1 | h1
      · rw [h1]; exact hf ks0
      · apply hq b (List.mem_cons_of_mem _ h1)
        have := h'.1 b h1
        simp only at this
        omega
    · rw [ExpiryQueue.modify_cons_ne _ _ _ _ _ h0]
      intro b hb
      rcases List.mem_cons.mp hb with h1 | h1
      · rw [h1]
        exact hq (ts, ks0) (List.mem_cons_self _ _) h0
      · exact ih h'.2 (fun b hb => hq b (List.mem_cons_of_mem _ hb)) b h1

namespace ExpireMap

theorem byol_erase_sorted (q : ExpiryQueue) (e : Int) (k : Key)
    (h : ExpiryQueue.Sorted q) :
    ExpiryQueue.Sorted (_byol_erase_from_expiry_queue q e k) := by
  unfold _byol_erase_from_expiry_queue
  split
  · exact h
  · simp only
    split
    · exact ExpiryQueue.sorted_erase _ _ (ExpiryQueue.sorted_modify _ _ _ h)
    · exact ExpiryQueue.sorted_modify _ _ _ h

theorem byol_erase_noEmpty (q : ExpiryQueue) (e : Int) (k : Key)
    (h : ExpiryQueue.NoEmpty q) :
    ExpiryQueue.NoEmpty (_byol_erase_from_expiry_queue q e k) := by
  unfold _byol_erase_from_expiry_queue
  split
  · exact h
  · next ks hfind =>
    simp only
    split
    · intro b hb
      obtain ⟨hb1, hb2⟩ := (ExpiryQueue.mem_erase_iff _ _ _).mp hb
      rcases ExpiryQueue.mem_modify_cases _ _ _ _ hb1 with h1 | ⟨ks', _, h1⟩
      · exact h b h1
      · rw [h1] at hb2
        exact absurd rfl hb2
    · next hne =>
      intro b hb
      rcases ExpiryQueue.mem_modify_cases _ _ _ _ hb with h1 | ⟨ks', hf', h1⟩
      · exact h b h1
      · rw [hfind] at hf'
        cases hf'
        rw [h1]
        intro hnil
        apply hne
        show (KeySet.erase ks k).isEmpty = true
        have hnil' : KeySet.erase ks k = [] := hnil
        rw [hnil']
        rfl

theorem queue_add_wf (q : ExpiryQueue) (e : Int) (k : Key)
    (hs : ExpiryQueue.Sorted q) (hn : ExpiryQueue.NoEmpty q) :
    ExpiryQueue.Sorted (ExpiryQueue.modify
        (match ExpiryQueue.find q e with
          | none => ExpiryQueue.insert q e []
          | some _ => q) e (fun s => KeySet.insert s k)) ∧
      ExpiryQueue.NoEmpty (ExpiryQueue.modify
        (match ExpiryQueue.find q e with
          | none => ExpiryQueue.insert q e []
          | some _ => q) e (fun s => KeySet.insert s k)) := by
  have hs2 : ExpiryQueue.Sorted
      (match ExpiryQueue.find q e with
        | none => ExpiryQueue.insert q e []
        | some _ => q) := by
    split
    · exact ExpiryQueue.sorted_insert _ _ _ hs
    · exact hs
  refine ⟨ExpiryQueue.sorted_modify _ _ _ hs2, ?_⟩
  apply ExpiryQueue.noEmpty_modify _ _ _ hs2
  · intro b hb hne
    split at hb
    · rcases ExpiryQueue.mem_of_mem_insert _ _ _ _ hb with h1 | h1
      · exact hn b h1
      · rw [h1] at hne
        exact absurd rfl hne
    · exact hn b hb
  · intro ks
    exact KeySet.insert_ne_nil ks k

theorem put_queue (m : ExpireMap) (now : Int) (key : Key) (value : Value)
    (timeoutMs : Int) (hs : m._shutdown = false) (ht : 0 < timeoutMs) :
    (put m now key value timeoutMs)._expiry_queue =
      ExpiryQueue.modify
        (match ExpiryQueue.find
            (match KVStore.find m._data_table key with
              | some tv => _byol_erase_from_expiry_queue m._expiry_queue key (wrap32 tv.expiry)
              | none => m._expiry_queue) (put_expiry now timeoutMs) with
          | none => ExpiryQueue.insert
            (match KVStore.find m._data_table key with
              | some tv => _byol_erase_from_expiry_queue m._expiry_queue key (wrap32 tv.expiry)
              | none => m._expiry_queue) (put_expiry now timeoutMs) []
          | some _ =>
            (match KVStore.find m._data_table key with
              | some tv => _byol_erase_from_expiry_queue m._expiry_queue key (wrap32 tv.expiry)
              | none => m._expiry_queue))
        (put_expiry now timeoutMs) (fun s => KeySet.insert s key) := by
  unfold put
  have : ¬ timeoutMs ≤ 0 := by omega
  simp [hs, this]

theorem put_queueWF (m : ExpireMap) (now : Int) (key : Key) (value : Value)
    (timeoutMs : Int) (h : QueueWF m) : QueueWF (put m now key value timeoutMs) := by
  by_cases hc : m._shutdown = true ∨ timeoutMs ≤ 0
  · rw [put_noop m now key value timeoutMs hc]; exact h
  · have hs : m._shutdown = false := by
      cases hb : m._shutdown
      · rfl
      · exact absurd (Or.inl hb) hc
    have ht : 0 < timeoutMs := by
      by_contra hcc
      exact hc (Or.inr (by omega))
    unfold QueueWF
    rw [put_queue m now key value timeoutMs hs ht]
    apply queue_add_wf
    · split
      · exact byol_erase_sorted _ _ _ h.1
      · exact h.1
    · split
      · exact byol_erase_noEmpty _ _ _ h.2
      · exact h.2

theorem remove_queueWF (m : ExpireMap) (key : Key) (h : QueueWF m) :
    QueueWF (remove m key) := by
  unfold remove
  split
  · exact ⟨byol_erase_sorted _ _ _ h.1, byol_erase_noEmpty _ _ _ h.2⟩
  · exact h

theorem evict_while_queue_suffix (shutdown : Bool) (clock : Nat → Int) (q : ExpiryQueue)
    (i : Nat) (curtime : Int) (tbl : KVStore) :
    (_evict_while shutdown clock q i curtime tbl).2.1 <:+ q := by
  induction q generalizing i curtime tbl with
  | nil => exact List.suffix_refl _
  | cons b rest ih =>
    obtain ⟨ts, ks⟩ := b
    unfold _evict_while
    split
    · exact List.IsSuffix.trans (ih _ _ _) (List.suffix_cons _ _)
    · exact List.suffix_refl _

theorem evict_queueWF (m : ExpireMap) (clock : Nat → Int) (h : QueueWF m) :
    QueueWF (_evict m clock).1 := by
  have hsuf : (_evict m clock).1._expiry_queue <:+ m._expiry_queue :=
    evict_while_queue_suffix _ _ _ _ _ _
  refine ⟨List.Pairwise.sublist hsuf.sublist h.1, ?_⟩
  intro b hb
  exact h.2 b (hsuf.subset hb)

theorem queueWF_empty : QueueWF empty :=
  ⟨List.Pairwise.nil, fun b hb => by simp [empty] at hb⟩

theorem step_queueWF (m : ExpireMap) (op : Op) (h : QueueWF m) : QueueWF (step m op) := by
  cases op with
  | put now key value timeoutMs => exact put_queueWF m now key value timeoutMs h
  | remove key => exact remove_queueWF m key h
  | evict clock => exact evict_queueWF m clock h

theorem run_queueWF (ops : List Op) (m : ExpireMap) (h : QueueWF m) :
    QueueWF (run m ops) := by
  induction ops generalizing m with
  | nil => exact h
  | cons op rest ih => exact ih _ (step_queueWF m op h)


/-- C20 (contract of the index erase helper). For every expiry queue without an
empty bucket, timestamp `e` and key `k`: when there is no bucket at `e`, or the
bucket at `e` does not contain `k`, `_byol_erase_from_expiry_queue(e, k)` returns
the queue unchanged; when there is a bucket at `e`, the bucket at `e` afterwards is
the old one with `k` removed, or is gone when that is empty; no bucket left at `e`
contains `k`; the bucket at every other timestamp is unchanged; and the result has
no empty bucket. The helper is a total function, it raises no error. -/
theorem byol_erase_contract (q : ExpiryQueue) (e : Int) (k : Key)
    (hne : ExpiryQueue.NoEmpty q) :
    (ExpiryQueue.find q e = none → _byol_erase_from_expiry_queue q e k = q) ∧
      (∀ ks, ExpiryQueue.find q e = some ks → k ∉ ks →
        _byol_erase_from_expiry_queue q e k = q) ∧
      (∀ ks, ExpiryQueue.find q e = some ks →
        ExpiryQueue.find (_byol_erase_from_expiry_queue q e k) e =
          if KeySet.erase ks k = [] then none else some (KeySet.erase ks k)) ∧
      (∀ ks, ExpiryQueue.find (_byol_erase_from_expiry_queue q e k) e = some ks → k ∉ ks) ∧
      (∀ e', e' ≠ e →
        ExpiryQueue.find (_byol_erase_from_expiry_queue q e k) e' = ExpiryQueue.find q e') ∧
      ExpiryQueue.NoEmpty (_byol_erase_from_expiry_queue q e k) := by
  have hpost : ∀ ks, ExpiryQueue.find q e = some ks →
      ExpiryQueue.find (_byol_erase_from_expiry_queue q e k) e =
        if KeySet.erase ks k = [] then none else some (KeySet.erase ks k) := by
    intro ks hf
    unfold _byol_erase_from_expiry_queue
    rw [hf]
    simp only
    by_cases hnil : KeySet.erase ks k = []
    · rw [hnil]
      simp only [List.isEmpty_nil, if_true]
      exact ExpiryQueue.find_erase_bucket_self _ _
    · have hemp : (KeySet.erase ks k).isEmpty = false := by
        cases hx : KeySet.erase ks k with
        | nil => exact absurd hx hnil
        | cons a l => rfl
      rw [hemp]
      simp only [if_neg hnil, Bool.false_eq_true, if_false]
      exact ExpiryQueue.find_modify_self _ _ _ _ hf
  refine ⟨?_, ?_, hpost, ?_, ?_, byol_erase_noEmpty q e k hne⟩
  · intro hf
    unfold _byol_erase_from_expiry_queue
    rw [hf]
  · intro ks hf hk
    have hks : ks ≠ [] := hne (e, ks) (ExpiryQueue.bucket_mem_of_find q e ks hf)
    have he : KeySet.erase ks k = ks := KeySet.erase_of_not_mem ks k hk
    unfold _byol_erase_from_expiry_queue
    rw [hf]
    simp only
    rw [he]
    have hemp : ks.isEmpty = false := by
      cases hx : ks with
      | nil => exact absurd hx hks
      | cons a l => rfl
    rw [hemp]
    simp only [Bool.false_eq_true, if_false]
    exact ExpiryQueue.modify_of_fixed q e _ ks hf he
  · intro ks hf
    cases hq : ExpiryQueue.find q e with
    | none =>
      have : _byol_erase_from_expiry_queue q e k = q := by
        unfold _byol_erase_from_expiry_queue
        rw [hq]
      rw [this, hq] at hf
      exact absurd hf (by simp)
    | some ks0 =>
      rw [hpost ks0 hq] at hf
      split at hf
      · exact absurd hf (by simp)
      · cases hf
        exact KeySet.not_mem_erase ks0 k
  · intro e' hne'
    unfold _byol_erase_from_expiry_queue
    split
    · rfl
    · simp only
      split
      · rw [ExpiryQueue.find_erase_bucket_ne _ _ _ hne', ExpiryQueue.find_modify_ne _ _ _ _ hne']
      · rw [ExpiryQueue.find_modify_ne _ _ _ _ hne']

/-- Witness of C20: erasing key 1 at timestamp 5, then key 3 at timestamp 9, which
empties that bucket. -/
theorem byol_erase_contract_witness :
    ExpiryQueue.find (_byol_erase_from_expiry_queue [(5, [1, 2]), (9, [3])] 5 1) 5 =
        some [2] ∧
      ExpiryQueue.find (_byol_erase_from_expiry_queue [(5, [1, 2]), (9, [3])] 9 3) 9 =
        none ∧
      _byol_erase_from_expiry_queue [(5, [1, 2]), (9, [3])] 7 3 = [(5, [1, 2]), (9, [3])] :=
  ⟨(byol_erase_contract [(5, [1, 2]), (9, [3])] 5 1 (by decide)).2.2.1 [1, 2] rfl,
    (byol_erase_contract [(5, [1, 2]), (9, [3])] 9 3 (by decide)).2.2.1 [3] rfl,
    (byol_erase_contract [(5, [1, 2]), (9, [3])] 7 3 (by decide)).1 rfl⟩


/-! ## A sweep with the clock held at one reading -/

theorem evict_for_keep_of_not_mem (remove_expiry : Int) (ks : KeySet) (tbl : KVStore)
    (k : Key) (hk : k ∉ ks) :
    KVStore.find (_evict_for tbl remove_expiry ks) k = KVStore.find tbl k := by
  induction ks generalizing tbl with
  | nil => rfl
  | cons x rest ih =>
    have hxk : k ≠ x := fun e => hk (e ▸ List.mem_cons_self _ _)
    have hrest : k ∉ rest := fun h => hk (List.mem_cons_of_mem _ h)
    unfold _evict_for
    rw [ih _ hrest]
    split
    · split
      · exact KVStore.find_erase_ne _ _ _ hxk
      · rfl
    · rfl

theorem evict_while_shutdown (clock : Nat → Int) (q : ExpiryQueue) (i : Nat)
    (curtime : Int) (tbl : KVStore) :
    _evict_while true clock q i curtime tbl = (tbl, q, curtime) := by
  cases q with
  | nil => rfl
  | cons b rest =>
    obtain ⟨ts, ks⟩ := b
    simp [_evict_while]

theorem evict_popped_shutdown (clock : Nat → Int) (q : ExpiryQueue) (i : Nat)
    (curtime : Int) : _evict_popped true clock q i curtime = [] := by
  cases q with
  | nil => rfl
  | cons b rest =>
    obtain ⟨ts, ks⟩ := b
    simp [_evict_popped]

theorem filter_of_all_ge (q : ExpiryQueue) (now : Int) (h : ∀ b ∈ q, now ≤ b.1) :
    q.filter (fun b => decide (now ≤ b.1)) = q ∧ q.filter (fun b => decide (b.1 < now)) = [] := by
  constructor
  · rw [List.filter_eq_self]
    intro b hb
    simpa using h b hb
  · rw [List.filter_eq_nil_iff]
    intro b hb
    have := h b hb
    simp only [decide_eq_true_eq]
    omega

theorem evict_while_fixed_clock (now : Int) (q : ExpiryQueue)
    (hsorted : ExpiryQueue.Sorted q) (i : Nat) (tbl : KVStore) :
    (_evict_while false (fun _ => now) q i now tbl).2.1 =
        q.filter (fun b => decide (now ≤ b.1)) ∧
      _evict_popped false (fun _ => now) q i now = q.filter (fun b => decide (b.1 < now)) ∧
      (_evict_while false (fun _ => now) q i now tbl).2.2 = now := by
  induction q generalizing i tbl with
  | nil => exact ⟨rfl, rfl, rfl⟩
  | cons b rest ih =>
    obtain ⟨ts, ks⟩ := b
    have h' := (ExpiryQueue.sorted_cons _ _).mp hsorted
    by_cases hlt : ts < now
    · have hge : ¬ now ≤ ts := by omega
      obtain ⟨h1, h2, h3⟩ := ih h'.2 (i + 1) (_evict_for tbl ts ks)
      unfold _evict_while _evict_popped
      simp only [Bool.not_false, Bool.true_and, decide_eq_true_eq, hlt, if_true]
      refine ⟨?_, ?_, h3⟩
      · rw [h1, List.filter_cons_of_neg (by simpa using hlt)]
      · rw [h2, List.filter_cons_of_pos (by simpa using hlt)]
    · have hall : ∀ c ∈ (ts, ks) :: rest, now ≤ c.1 := by
        intro c hc
        rcases List.mem_cons.mp hc with h1 | h1
        · rw [h1]; show now ≤ ts; omega
        · have := h'.1 c h1
          simp only at this
          omega
      obtain ⟨hf1, hf2⟩ := filter_of_all_ge _ now hall
      unfold _evict_while _evict_popped
      simp only [Bool.not_false, Bool.true_and, decide_eq_true_eq, hlt, if_false]
      exact ⟨hf1.symm, hf2.symm, trivial⟩

theorem evict_while_removed_iff (now : Int) (q : ExpiryQueue)
    (hsorted : ExpiryQueue.Sorted q) (i : Nat) (tbl : KVStore) (k : Key) (tv : TimedValue)
    (hf : KVStore.find tbl k = some tv) :
    KVStore.find (_evict_while false (fun _ => now) q i now tbl).1 k = none ↔
      tv.expiry < now ∧ ∃ ks, ExpiryQueue.find q tv.expiry = some ks ∧ k ∈ ks := by
  induction q generalizing i tbl with
  | nil =>
    constructor
    · intro h
      have h0 : KVStore.find tbl k = none := h
      rw [hf] at h0
      exact absurd h0 (by simp)
    · rintro ⟨_, ks, hks, _⟩
      simp [ExpiryQueue.find] at hks
  | cons b rest ih =>
    obtain ⟨ts, ks0⟩ := b
    have h' := (ExpiryQueue.sorted_cons _ _).mp hsorted
    have hrest_none : ExpiryQueue.find rest ts = none := by
      apply ExpiryQueue.find_none_of_not_mem
      intro c hc
      have := h'.1 c hc
      simp only at this
      omega
    by_cases hlt : ts < now
    · have hstep : (_evict_while false (fun _ => now) ((ts, ks0) :: rest) i now tbl) =
          _evict_while false (fun _ => now) rest (i + 1) now (_evict_for tbl ts ks0) := by
        rw [_evict_while]
        simp only [Bool.not_false, Bool.true_and, decide_eq_true_eq, hlt, if_true]
      rw [hstep]
      by_cases he : tv.expiry = ts
      · by_cases hk : k ∈ ks0
        · have hgone : KVStore.find (_evict_for tbl ts ks0) k = none :=
            evict_for_erases ts ks0 tbl k tv hk hf he
          have hres : KVStore.find
              (_evict_while false (fun _ => now) rest (i + 1) now (_evict_for tbl ts ks0)).1 k =
                none := by
            cases hx : KVStore.find
                (_evict_while false (fun _ => now) rest (i + 1) now (_evict_for tbl ts ks0)).1 k with
            | none => rfl
            | some tv' =>
              have := evict_while_only_erases _ _ _ _ _ _ _ _ hx
              rw [hgone] at this
              exact absurd this (by simp)
          constructor
          · intro _
            exact ⟨by omega, ks0, by rw [he, ExpiryQueue.find_bucket_cons_self], hk⟩
          · intro _
            exact hres
        · have hkeep : KVStore.find (_evict_for tbl ts ks0) k = some tv := by
            rw [evict_for_keep_of_not_mem ts ks0 tbl k hk]; exact hf
          rw [ih h'.2 (i + 1) _ hkeep]
          constructor
          · rintro ⟨_, ks, hks, _⟩
            rw [he, hrest_none] at hks
            exact absurd hks (by simp)
          · rintro ⟨_, ks, hks, hmem⟩
            rw [he, ExpiryQueue.find_bucket_cons_self] at hks
            cases hks
            exact absurd hmem hk
      · have hkeep : KVStore.find (_evict_for tbl ts ks0) k = some tv :=
          evict_for_keep ts ks0 tbl k tv hf he
        rw [ih h'.2 (i + 1) _ hkeep, ExpiryQueue.find_bucket_cons_ne _ _ _ _ (Ne.symm he)]
    · have hstep : (_evict_while false (fun _ => now) ((ts, ks0) :: rest) i now tbl) =
          (tbl, (ts, ks0) :: rest, now) := by
        rw [_evict_while]
        simp only [Bool.not_false, Bool.true_and, decide_eq_true_eq, hlt, if_false]
      rw [hstep]
      constructor
      · intro h
        have h0 : KVStore.find tbl k = none := h
        rw [hf] at h0
        exact absurd h0 (by simp)
      · rintro ⟨hexp, ks, hks, _⟩
        exfalso
        have hmem := ExpiryQueue.bucket_mem_of_find _ _ _ hks
        rcases List.mem_cons.mp hmem with h1 | h1
        · have : tv.expiry = ts := congrArg Prod.fst h1
          omega
        · have := h'.1 _ h1
          simp only at this
          omega


/-! ## The popped buckets and the lock calls follow the loop -/

theorem evict_while_popped (shutdown : Bool) (clock : Nat → Int) (q : ExpiryQueue)
    (i : Nat) (curtime : Int) (tbl : KVStore) :
    _evict_popped shutdown clock q i curtime ++
        (_evict_while shutdown clock q i curtime tbl).2.1 = q ∧
      (_evict_while shutdown clock q i curtime tbl).1 =
        (_evict_popped shutdown clock q i curtime).foldl
          (fun t b => _evict_for t b.1 b.2) tbl := by
  induction q generalizing i curtime tbl with
  | nil => exact ⟨rfl, rfl⟩
  | cons b rest ih =>
    obtain ⟨ts, ks⟩ := b
    unfold _evict_while _evict_popped
    split
    · obtain ⟨h1, h2⟩ := ih (i + 1) (clock (i + 1)) (_evict_for tbl ts ks)
      refine ⟨?_, ?_⟩
      · rw [List.cons_append, h1]
      · rw [List.foldl_cons]
        exact h2
    · exact ⟨rfl, rfl⟩

theorem evict_while_locks_length (shutdown : Bool) (clock : Nat → Int) (q : ExpiryQueue)
    (i : Nat) (curtime : Int) :
    (_evict_while_locks shutdown clock q i curtime).length =
      4 * (_evict_popped shutdown clock q i curtime).length := by
  induction q generalizing i curtime with
  | nil => rfl
  | cons b rest ih =>
    obtain ⟨ts, ks⟩ := b
    unfold _evict_while_locks _evict_popped
    split
    · rw [List.length_append, ih (i + 1) (clock (i + 1))]
      simp only [List.length_cons, List.length_nil]
      omega
    · rfl

theorem nested_locks_rejected :
    LocksHeld.disciplined ⟨false, false⟩
        [LockCall.rwlock_wrlock, LockCall.mutex_lock, LockCall.mutex_unlock,
          LockCall.rwlock_unlock] = false ∧
      LocksHeld.disciplined ⟨false, false⟩ [LockCall.mutex_lock] = false ∧
      LocksHeld.disciplined ⟨false, false⟩ [LockCall.mutex_trylock, LockCall.mutex_unlock] =
        false := by decide

end ExpireMap

theorem ExpiryQueue.find_filter (q : ExpiryQueue) (P : Int → Bool) (e : Int) :
    ExpiryQueue.find (q.filter (fun b => P b.1)) e =
      if P e = true then ExpiryQueue.find q e else none := by
  induction q with
  | nil => simp [ExpiryQueue.find]
  | cons b rest ih =>
    obtain ⟨ts, ks⟩ := b
    by_cases hp : P ts = true
    · rw [List.filter_cons_of_pos (by simpa using hp)]
      by_cases h0 : ts = e
      · subst h0
        rw [ExpiryQueue.find_bucket_cons_self, ExpiryQueue.find_bucket_cons_self, if_pos hp]
      · rw [ExpiryQueue.find_bucket_cons_ne _ _ _ _ h0, ExpiryQueue.find_bucket_cons_ne _ _ _ _ h0]
        exact ih
    · rw [List.filter_cons_of_neg (by simpa using hp)]
      by_cases h0 : ts = e
      · subst h0
        rw [ih, if_neg hp, if_neg hp]
      · rw [ExpiryQueue.find_bucket_cons_ne _ _ _ _ h0]
        exact ih

namespace ExpireMap

/-- C18 (exact effect of a sweep on the data table). For every state that is not
shut down, with an ordered expiry queue, and a sweep run with the clock held at
`now`: a key present with the entry `tv` is removed from the data table if and only
if `tv.expiry < now` and the bucket at the timestamp `tv.expiry` contains the key;
an entry that is not removed is left as it was, and an absent key stays absent. -/
theorem evict_removes_exactly_expired (m : ExpireMap) (hs : m._shutdown = false)
    (hsorted : ExpiryQueue.Sorted m._expiry_queue) (now : Int) (k : Key) :
    (∀ tv, KVStore.find m._data_table k = some tv →
        (KVStore.find (_evict m (fun _ => now)).1._data_table k = none ↔
          tv.expiry < now ∧
            ∃ ks, ExpiryQueue.find m._expiry_queue tv.expiry = some ks ∧ k ∈ ks) ∧
        (KVStore.find (_evict m (fun _ => now)).1._data_table k = none ∨
          KVStore.find (_evict m (fun _ => now)).1._data_table k = some tv)) ∧
      (KVStore.find m._data_table k = none →
        KVStore.find (_evict m (fun _ => now)).1._data_table k = none) := by
  obtain ⟨tbl, q, sd⟩ := m
  have hs' : sd = false := hs
  subst hs'
  have honly : ∀ tv', KVStore.find
      (_evict_while false (fun _ => now) q 0 now tbl).1 k = some tv' →
        KVStore.find tbl k = some tv' :=
    fun tv' h => evict_while_only_erases _ _ _ _ _ _ _ _ h
  refine ⟨?_, ?_⟩
  · intro tv hf
    refine ⟨evict_while_removed_iff now q hsorted 0 tbl k tv hf, ?_⟩
    cases hx : KVStore.find (_evict_while false (fun _ => now) q 0 now tbl).1 k with
    | none => exact Or.inl hx
    | some tv' =>
      have h1 : KVStore.find tbl k = some tv' := honly tv' hx
      have h2 : KVStore.find tbl k = some tv := hf
      rw [h1] at h2
      cases h2
      exact Or.inr hx
  · intro hf
    cases hx : KVStore.find (_evict_while false (fun _ => now) q 0 now tbl).1 k with
    | none => exact hx
    | some tv' =>
      have h1 : KVStore.find tbl k = some tv' := honly tv' hx
      have h2 : KVStore.find tbl k = none := hf
      rw [h1] at h2
      exact absurd h2 (by simp)

/-- Witness of C18: at time 5000, key 8 (expiry 200, in the bucket at 200) is removed;
key 7 (expiry 9000) and key 9 (expiry 300, in no bucket) are kept. -/
theorem evict_removes_exactly_expired_witness :
    KVStore.find (_evict ⟨[(7, ⟨2, 9000⟩), (8, ⟨3, 200⟩), (9, ⟨4, 300⟩)],
        [(100, [7]), (200, [8]), (9000, [7])], false⟩ (fun _ => 5000)).1._data_table 8 =
        none ∧
      (KVStore.find (_evict ⟨[(7, ⟨2, 9000⟩), (8, ⟨3, 200⟩), (9, ⟨4, 300⟩)],
        [(100, [7]), (200, [8]), (9000, [7])], false⟩ (fun _ => 5000)).1._data_table 9 =
        none ∨
       KVStore.find (_evict ⟨[(7, ⟨2, 9000⟩), (8, ⟨3, 200⟩), (9, ⟨4, 300⟩)],
        [(100, [7]), (200, [8]), (9000, [7])], false⟩ (fun _ => 5000)).1._data_table 9 =
        some ⟨4, 300⟩) :=
  ⟨((evict_removes_exactly_expired ⟨[(7, ⟨2, 9000⟩), (8, ⟨3, 200⟩), (9, ⟨4, 300⟩)],
      [(100, [7]), (200, [8]), (9000, [7])], false⟩ rfl (by decide) 5000 8).1
      ⟨3, 200⟩ rfl).1.mpr ⟨by decide, [8], rfl, by decide⟩,
    ((evict_removes_exactly_expired ⟨[(7, ⟨2, 9000⟩), (8, ⟨3, 200⟩), (9, ⟨4, 300⟩)],
      [(100, [7]), (200, [8]), (9000, [7])], false⟩ rfl (by decide) 5000 9).1
      ⟨4, 300⟩ rfl).2⟩

/-- C19 (exact effect of a sweep on the expiry queue). For every state with an
ordered expiry queue and a sweep run with the clock held at `now`: when the map is
not shut down, `_evict` pops exactly the buckets whose timestamp is strictly less
than `now`, in ascending order of timestamp, running its `for` loop on the data
table for each in that order, and the queue it leaves consists of the buckets with
timestamp at least `now`, a bucket at `now` among them, each unchanged; when
shutdown is signaled it pops no bucket, whatever the clock. -/
theorem evict_pops_exactly_past_buckets (m : ExpireMap) (now : Int)
    (hsorted : ExpiryQueue.Sorted m._expiry_queue) :
    (m._shutdown = false →
        (_evict m (fun _ => now)).1._expiry_queue =
          m._expiry_queue.filter (fun b => decide (now ≤ b.1)) ∧
        _evict_popped m._shutdown (fun _ => now) m._expiry_queue 0 now =
          m._expiry_queue.filter (fun b => decide (b.1 < now)) ∧
        ExpiryQueue.Sorted (_evict_popped m._shutdown (fun _ => now) m._expiry_queue 0 now) ∧
        (_evict m (fun _ => now)).1._data_table =
          (_evict_popped m._shutdown (fun _ => now) m._expiry_queue 0 now).foldl
            (fun t b => _evict_for t b.1 b.2) m._data_table ∧
        (∀ e, now ≤ e → ExpiryQueue.find (_evict m (fun _ => now)).1._expiry_queue e =
          ExpiryQueue.find m._expiry_queue e) ∧
        (∀ e, e < now →
          ExpiryQueue.find (_evict m (fun _ => now)).1._expiry_queue e = none)) ∧
      (m._shutdown = true → ∀ clock : Nat → Int,
        (_evict m clock).1._expiry_queue = m._expiry_queue ∧
        _evict_popped m._shutdown clock m._expiry_queue 0 (clock 0) = []) := by
  obtain ⟨tbl, q, sd⟩ := m
  refine ⟨?_, ?_⟩
  · intro hs
    have hs' : sd = false := hs
    subst hs'
    obtain ⟨h1, h2, _⟩ := evict_while_fixed_clock now q hsorted 0 tbl
    have hq : (_evict ⟨tbl, q, false⟩ (fun _ => now)).1._expiry_queue =
        q.filter (fun b => decide (now ≤ b.1)) := h1
    refine ⟨hq, h2, ?_, ?_, ?_, ?_⟩
    · show ExpiryQueue.Sorted (_evict_popped false (fun _ => now) q 0 now)
      rw [h2]
      exact List.Pairwise.filter _ hsorted
    · exact (evict_while_popped false (fun _ => now) q 0 now tbl).2
    · intro e he
      rw [hq, ExpiryQueue.find_filter q (fun t => decide (now ≤ t)) e]
      simp [he]
    · intro e he
      rw [hq, ExpiryQueue.find_filter q (fun t => decide (now ≤ t)) e]
      have : ¬ now ≤ e := by omega
      simp [this]
  · intro hs clock
    have hs' : sd = true := hs
    subst hs'
    refine ⟨?_, evict_popped_shutdown _ _ _ _⟩
    show (_evict_while true clock q 0 (clock 0) tbl).2.1 = q
    rw [evict_while_shutdown]

/-- Witness of C19: with buckets at 100, 200, 5000 and 9000 and the clock at 5000, the
sweep pops the buckets at 100 and 200 and keeps those at 5000 and 9000. -/
theorem evict_pops_exactly_past_buckets_witness :
    (_evict ⟨[], [(100, [7]), (200, [8]), (5000, [1]), (9000, [7])], false⟩
        (fun _ => 5000)).1._expiry_queue = [(5000, [1]), (9000, [7])] ∧
      _evict_popped false (fun _ => 5000)
        [(100, [7]), (200, [8]), (5000, [1]), (9000, [7])] 0 5000 =
        [(100, [7]), (200, [8])] :=
  have h := (evict_pops_exactly_past_buckets
    ⟨[], [(100, [7]), (200, [8]), (5000, [1]), (9000, [7])], false⟩ 5000 (by decide)).1 rfl
  ⟨h.1, h.2.1⟩


theorem evict_while_locks_disciplined (shutdown : Bool) (clock : Nat → Int)
    (q : ExpiryQueue) (i : Nat) (curtime : Int) (tail : List LockCall) :
    LocksHeld.disciplined ⟨false, true⟩
        (_evict_while_locks shutdown clock q i curtime ++ tail) =
      LocksHeld.disciplined ⟨false, true⟩ tail := by
  induction q generalizing i curtime with
  | nil => rfl
  | cons b rest ih =>
    obtain ⟨ts, ks⟩ := b
    unfold _evict_while_locks
    split
    · have := ih (i + 1) (clock (i + 1))
      simp only [List.cons_append, List.nil_append, List.append_assoc,
        LocksHeld.disciplined, LockCall.allowed, LockCall.apply, Bool.not_false,
        Bool.not_true, Bool.and_true, Bool.and_false, Bool.true_and, Bool.false_and]
      exact this
    · rfl

/-- C16 (the two locks are never nested). For every state and arguments, the lock
calls of `put`, `get`, `remove`, `debug_size` and `_evict`, taken in program order
along the path the call executes, are such that the executing thread never holds
`data_tbl_lock` and `expiry_q_lock` together, every lock it acquires is released
before the operation returns, `_byol_erase_from_expiry_queue` runs with
`expiry_q_lock` held, and `_evict` returns, so the eviction loop sleeps, with
neither lock held. -/
theorem locks_never_nested (m : ExpireMap) (key : Key) (timeoutMs : Int)
    (clock : Nat → Int) :
    LocksHeld.disciplined ⟨false, false⟩ (put_locks m key timeoutMs) = true ∧
      LocksHeld.disciplined ⟨false, false⟩ (get_locks m) = true ∧
      LocksHeld.disciplined ⟨false, false⟩ (remove_locks m key) = true ∧
      LocksHeld.disciplined ⟨false, false⟩ debug_size_locks = true ∧
      LocksHeld.disciplined ⟨false, false⟩ (_evict_locks m clock) = true := by
  refine ⟨?_, ?_, ?_, rfl, ?_⟩
  · unfold put_locks
    split
    · rfl
    · split <;> rfl
  · unfold get_locks
    split <;> rfl
  · unfold remove_locks
    split <;> rfl
  · unfold _evict_locks
    have h := evict_while_locks_disciplined m._shutdown clock m._expiry_queue 0 (clock 0)
      [LockCall.mutex_unlock]
    show (LockCall.allowed ⟨false, false⟩ LockCall.mutex_lock &&
        !((LockCall.apply ⟨false, false⟩ LockCall.mutex_lock).data_tbl_lock &&
          (LockCall.apply ⟨false, false⟩ LockCall.mutex_lock).expiry_q_lock) &&
        LocksHeld.disciplined (LockCall.apply ⟨false, false⟩ LockCall.mutex_lock)
          (_evict_while_locks m._shutdown clock m._expiry_queue 0 (clock 0) ++
            [LockCall.mutex_unlock])) = true
    have ha : LockCall.apply ⟨false, false⟩ LockCall.mutex_lock = ⟨false, true⟩ := rfl
    rw [ha, h]
    rfl


/-- C11, the claim fails at the value 0: `get` after `put(7, 0, 50)` returns the same
result as `get` of a key that was never inserted. -/
theorem sentinel_collides_with_zero :
    ¬ (get (put empty 0 7 0 50) 0 7 ≠ get empty 0 7) := by decide

/-- C11 (amended). For `ExpireMap<int, int>` the result `get` returns for an absent
or expired key is `(Value)NULL = 0`; for every value `v` other than 0 and every
`t > 0` (expiry `n + 1000 * t` representable in 64 bits), on a map that is not shut
down, `get(k)` after `put(k, v, t)` at any time up to the expiry is `v`, which
differs from that result. -/
theorem sentinel_distinct_of_nonzero (m : ExpireMap) (hs : m._shutdown = false)
    (n n' : Int) (k : Key) (v : Value) (t : Int) (hv : v ≠ 0) (ht : 0 < t)
    (hfit : Fits64 (n + 1000 * t)) (hn' : n' ≤ n + 1000 * t) :
    get (put m n k v t) n' k = v ∧ get (put m n k v t) n' k ≠ NULL ∧
      (∀ (m' : ExpireMap) (now : Int) (k' : Key),
        KVStore.find m'._data_table k' = none → get m' now k' = NULL) ∧
      (∀ (m' : ExpireMap) (now : Int) (k' : Key) (tv : TimedValue),
        KVStore.find m'._data_table k' = some tv → tv.expiry < now →
          get m' now k' = NULL) := by
  have hf := put_find_self m n k v t hs ht
  rw [put_expiry_of_fits n t hfit] at hf
  have hs' : (put m n k v t)._shutdown = false := by rw [put_shutdown]; exact hs
  have hg : get (put m n k v t) n' k = v := get_of_find _ n' k _ hs' hf hn'
  refine ⟨hg, ?_, fun m' now k' h => get_of_absent m' now k' h,
    fun m' now k' tv h1 h2 => get_of_expired m' now k' tv h1 h2⟩
  rw [hg]
  exact hv

/-- Witness of the amended C11: the value 5 is told apart from absence. -/
theorem sentinel_distinct_of_nonzero_witness :
    get (put empty 0 7 5 50) 0 7 = 5 ∧ get (put empty 0 7 5 50) 0 7 ≠ NULL :=
  have h := sentinel_distinct_of_nonzero empty rfl 0 0 7 5 50 (by decide) (by decide)
    (by decide) (by decide)
  ⟨h.1, h.2.1⟩

/-- C12 (shutdown short-circuits `put` and `get`). Once the shutdown flag is set,
for every key, value, timeout and clock reading, `put` returns the state unchanged
(data table and expiry queue alike) and `get` returns `(Value)NULL` for every key,
also for keys whose entry is present and unexpired. -/
theorem shutdown_short_circuits (m : ExpireMap) (hs : m._shutdown = true) (now : Int)
    (k : Key) (v : Value) (t : Int) :
    put m now k v t = m ∧
      (put m now k v t)._data_table = m._data_table ∧
      (put m now k v t)._expiry_queue = m._expiry_queue ∧
      get m now k = NULL := by
  have h := put_noop m now k v t (Or.inl hs)
  rw [h]
  refine ⟨rfl, rfl, rfl, ?_⟩
  unfold get
  simp [hs]

/-- Witness of C12: a shut down map holding key 7 with value 1, unexpired at time 10. -/
theorem shutdown_short_circuits_witness :
    put ⟨[(7, ⟨1, 50000⟩)], [(50000, [7])], true⟩ 10 8 2 5 =
        ⟨[(7, ⟨1, 50000⟩)], [(50000, [7])], true⟩ ∧
      get ⟨[(7, ⟨1, 50000⟩)], [(50000, [7])], true⟩ 10 7 = NULL :=
  have h := shutdown_short_circuits ⟨[(7, ⟨1, 50000⟩)], [(50000, [7])], true⟩ rfl 10 7 2 5
  have h' := shutdown_short_circuits ⟨[(7, ⟨1, 50000⟩)], [(50000, [7])], true⟩ rfl 10 8 2 5
  ⟨h'.1, h.2.2.2⟩

/-- C13, evaluated where the code departs from it: `put(7, 1, 100)` at clock time
1700000000000000 followed by the overwrite `put(7, 2, 1)` ten microseconds later
leaves key 7 in the bucket at the old expiry 1700000000100000, next to the bucket at
the new expiry 1700000000001010. The helper called with its arguments in the
declared order, `(old expiry, 7)`, removes the old bucket. -/
theorem put_overwrite_leaves_old_pairing :
    KVStore.find (put empty 1700000000000000 7 1 100)._data_table 7 =
        some ⟨1, 1700000000100000⟩ ∧
      (put empty 1700000000000000 7 1 100)._expiry_queue = [(1700000000100000, [7])] ∧
      (put (put empty 1700000000000000 7 1 100) 1700000000000010 7 2 1)._expiry_queue =
        [(1700000000001010, [7]), (1700000000100000, [7])] ∧
      ExpiryQueue.find
        (put (put empty 1700000000000000 7 1 100) 1700000000000010 7 2 1)._expiry_queue
        1700000000100000 = some [7] ∧
      _byol_erase_from_expiry_queue [(1700000000100000, [7])] 1700000000100000 7 = [] := by
  decide

/-- C14, evaluated where the code departs from it: after `put(7, 1, 50)` at clock
time 1700000000000000, `remove(7)` erases the entry from the data table and leaves
key 7 in the bucket at its expiry 1700000000050000. The helper called with its
arguments in the declared order, `(expiry, 7)`, removes that bucket. -/
theorem remove_leaves_pairing :
    (put empty 1700000000000000 7 1 50)._expiry_queue = [(1700000000050000, [7])] ∧
      (remove (put empty 1700000000000000 7 1 50) 7)._data_table = [] ∧
      (remove (put empty 1700000000000000 7 1 50) 7)._expiry_queue =
        [(1700000000050000, [7])] ∧
      _byol_erase_from_expiry_queue [(1700000000050000, [7])] 1700000000050000 7 = [] := by
  decide

/-- C17, evaluated where the code departs from it: three `put` calls at clock time 0,
the last an overwrite of key 3000, leave key 2000 in the data table with the
unexpired value 22 and expiry 3000 while the expiry queue has no bucket at 3000; a
sweep at time 20000 then leaves that entry in the data table. -/
theorem overwrite_erases_pairing_of_other_key :
    KVStore.find (run empty [Op.put 0 3000 11 2, Op.put 0 2000 22 3])._data_table 2000 =
        some ⟨22, 3000⟩ ∧
      (run empty [Op.put 0 3000 11 2, Op.put 0 2000 22 3])._expiry_queue =
        [(2000, [3000]), (3000, [2000])] ∧
      KVStore.find (run empty
        [Op.put 0 3000 11 2, Op.put 0 2000 22 3, Op.put 0 3000 33 10])._data_table 2000 =
        some ⟨22, 3000⟩ ∧
      get (run empty [Op.put 0 3000 11 2, Op.put 0 2000 22 3, Op.put 0 3000 33 10])
        0 2000 = 22 ∧
      (run empty [Op.put 0 3000 11 2, Op.put 0 2000 22 3, Op.put 0 3000 33 10])._expiry_queue =
        [(2000, [3000]), (10000, [3000])] ∧
      ExpiryQueue.find (run empty
        [Op.put 0 3000 11 2, Op.put 0 2000 22 3, Op.put 0 3000 33 10])._expiry_queue 3000 =
        none ∧
      (run empty [Op.put 0 3000 11 2, Op.put 0 2000 22 3, Op.put 0 3000 33 10,
        Op.evict (fun _ => 20000)])._data_table = [(2000, ⟨22, 3000⟩)] := by decide


/-! ## Expiry arithmetic, purity of `get`, termination of the sweep -/

theorem shadow_expiry_of_fits (curtime timeout_ms : Int) (ht : 0 < timeout_ms)
    (hint : timeout_ms * 1000 < 2 ^ 31) (hfit : Fits64 (curtime + 1000 * timeout_ms)) :
    shadow_expiry curtime timeout_ms = curtime + 1000 * timeout_ms := by
  have h32 : wrap32 (timeout_ms * 1000) = timeout_ms * 1000 := by
    unfold wrap32
    omega
  unfold shadow_expiry
  rw [h32]
  unfold wrap64
  unfold Fits64 at hfit
  omega

/-- C21 (expiry arithmetic). For every clock reading `now` and timeout
`timeoutMs > 0` such that `now + 1000 * timeoutMs` fits in a signed 64-bit integer,
the entry `put` stores on a map that is not shut down has expiry exactly
`now + 1000 * timeoutMs`, which is strictly greater than `now`. The shadow expiry
`curtime + timeout_ms * 1000` of the tests, whose product is formed in `int`, is the
same number when it is computed from the same clock reading and the product fits in
an `int` (the tests use timeouts up to 1024); computed from an earlier reading it is
not later than the stored expiry. -/
theorem put_expiry_exact (m : ExpireMap) (hs : m._shutdown = false) (now : Int)
    (k : Key) (v : Value) (timeoutMs : Int) (ht : 0 < timeoutMs)
    (hfit : Fits64 (now + 1000 * timeoutMs)) :
    KVStore.find (put m now k v timeoutMs)._data_table k =
        some ⟨v, now + 1000 * timeoutMs⟩ ∧
      now < now + 1000 * timeoutMs ∧
      (timeoutMs * 1000 < 2 ^ 31 →
        shadow_expiry now timeoutMs = now + 1000 * timeoutMs) ∧
      (∀ curtime, Fits64 curtime → curtime ≤ now → timeoutMs * 1000 < 2 ^ 31 →
        shadow_expiry curtime timeoutMs ≤ now + 1000 * timeoutMs) := by
  have hf := put_find_self m now k v timeoutMs hs ht
  rw [put_expiry_of_fits now timeoutMs hfit] at hf
  refine ⟨hf, by omega, fun hint => shadow_expiry_of_fits now timeoutMs ht hint hfit, ?_⟩
  intro curtime hcur hle hint
  have hfit' : Fits64 (curtime + 1000 * timeoutMs) := by
    unfold Fits64 at hcur hfit ⊢
    omega
  rw [shadow_expiry_of_fits curtime timeoutMs ht hint hfit']
  omega

/-- Witness of C21: `put(7, 1, 1024)` at the clock reading 1700000000000000. -/
theorem put_expiry_exact_witness :
    KVStore.find (put empty 1700000000000000 7 1 1024)._data_table 7 =
        some ⟨1, 1700000001024000⟩ ∧
      shadow_expiry 1700000000000000 1024 = 1700000001024000 :=
  have h := put_expiry_exact empty rfl 1700000000000000 7 1 1024 (by decide) (by decide)
  ⟨h.1, h.2.2.1 (by decide)⟩

/-- C22 (`get` is a pure read of the data table). For every state, key and clock
reading, the state after `get` is the state before it, data table and expiry queue
included, the value it returns is that of `get`, and this value is the same in any
two states with the same data table and shutdown flag, whatever their expiry queues
hold. -/
theorem get_is_pure_read (m : ExpireMap) (now : Int) (k : Key) :
    (get_call m now k).1 = m ∧
      (get_call m now k).1._data_table = m._data_table ∧
      (get_call m now k).1._expiry_queue = m._expiry_queue ∧
      (get_call m now k).2 = get m now k ∧
      (∀ m' : ExpireMap, m'._data_table = m._data_table → m'._shutdown = m._shutdown →
        get m' now k = get m now k ∧ (get_call m' now k).2 = (get_call m now k).2) ∧
      (∀ q : ExpiryQueue, get { m with _expiry_queue := q } now k = get m now k) := by
  have h1 : (get_call m now k).1 = m := by
    unfold get_call
    split
    · rfl
    · split
      · rfl
      · split <;> rfl
  have h2 : ∀ m0 : ExpireMap, (get_call m0 now k).2 = get m0 now k := by
    intro m0
    unfold get_call get
    split
    · rfl
    · split
      · rfl
      · split <;> rfl
  have h3 : ∀ m' : ExpireMap, m'._data_table = m._data_table →
      m'._shutdown = m._shutdown → get m' now k = get m now k := by
    intro m' hd hsd
    exact get_congr m m' now k hsd (by rw [hd])
  refine ⟨h1, by rw [h1], by rw [h1], h2 m, ?_, ?_⟩
  · intro m' hd hsd
    exact ⟨h3 m' hd hsd, by rw [h2 m', h2 m, h3 m' hd hsd]⟩
  · intro q
    exact h3 _ rfl rfl


theorem evict_body_length (shutdown : Bool) (clock : Nat → Int) (s : EvictLoop)
    (h : _evict_cond shutdown s = true) :
    (_evict_body clock s).q.length + 1 = s.q.length ∧
      ∃ b, s.q = b :: (_evict_body clock s).q := by
  obtain ⟨tbl, q, curtime, i⟩ := s
  cases q with
  | nil => simp [_evict_cond] at h
  | cons b rest =>
    obtain ⟨ts, ks⟩ := b
    exact ⟨rfl, (ts, ks), rfl⟩

theorem evict_iterate_spec (shutdown : Bool) (clock : Nat → Int) (q : ExpiryQueue)
    (fuel i : Nat) (curtime : Int) (tbl : KVStore) (hfuel : q.length ≤ fuel) :
    _evict_iterate shutdown clock fuel ⟨tbl, q, curtime, i⟩ =
      some (⟨(_evict_while shutdown clock q i curtime tbl).1,
          (_evict_while shutdown clock q i curtime tbl).2.1,
          (_evict_while shutdown clock q i curtime tbl).2.2,
          i + (_evict_popped shutdown clock q i curtime).length⟩,
        (_evict_popped shutdown clock q i curtime).length) := by
  induction q generalizing fuel i curtime tbl with
  | nil =>
    cases fuel with
    | zero => simp [_evict_iterate, _evict_cond, _evict_while, _evict_popped]
    | succ f => simp [_evict_iterate, _evict_cond, _evict_while, _evict_popped]
  | cons b rest ih =>
    obtain ⟨ts, ks⟩ := b
    cases fuel with
    | zero => simp at hfuel
    | succ f =>
      have hf : rest.length ≤ f := by
        simp only [List.length_cons] at hfuel
        omega
      by_cases hc : (!shutdown && decide (ts < curtime)) = true
      · have hcond : _evict_cond shutdown ⟨tbl, (ts, ks) :: rest, curtime, i⟩ = true := hc
        have hbody : _evict_body clock ⟨tbl, (ts, ks) :: rest, curtime, i⟩ =
            ⟨_evict_for tbl ts ks, rest, clock (i + 1), i + 1⟩ := rfl
        rw [_evict_iterate, if_pos hcond, hbody, ih f (i + 1) (clock (i + 1)) _ hf]
        rw [_evict_while, _evict_popped, if_pos hc, if_pos hc]
        simp only [Option.map_some', List.length_cons]
        have harith : i + 1 + (_evict_popped shutdown clock rest (i + 1) (clock (i + 1))).length =
            i + ((_evict_popped shutdown clock rest (i + 1) (clock (i + 1))).length + 1) := by
          omega
        rw [harith]
      · have hcond : ¬ (_evict_cond shutdown ⟨tbl, (ts, ks) :: rest, curtime, i⟩ = true) := hc
        rw [_evict_iterate, if_neg hcond, _evict_while, _evict_popped, if_neg hc, if_neg hc]
        rfl

/-- C23 (a sweep terminates). For every expiry queue and every sequence of clock
samples, non-decreasing or not, with no other operation interleaved, the `while`
loop of `_evict` run with as many iterations allowed as there are buckets at entry
reaches its exit: it makes `n` iterations with `n` at most the number of buckets at
entry, leaves `n` buckets fewer in the queue, ends with its condition false, and
its result is that of `_evict_while`. Every iteration erases the first bucket of
the queue and inserts none. -/
theorem evict_loop_terminates (shutdown : Bool) (clock : Nat → Int) (q : ExpiryQueue)
    (i : Nat) (curtime : Int) (tbl : KVStore) :
    (∃ final n,
        _evict_iterate shutdown clock q.length ⟨tbl, q, curtime, i⟩ = some (final, n) ∧
        n ≤ q.length ∧
        final.q.length + n = q.length ∧
        _evict_cond shutdown final = false ∧
        n = (_evict_popped shutdown clock q i curtime).length ∧
        (final.tbl, final.q, final.curtime) = _evict_while shutdown clock q i curtime tbl ∧
        ∀ fuel, q.length ≤ fuel →
          _evict_iterate shutdown clock fuel ⟨tbl, q, curtime, i⟩ = some (final, n)) ∧
      (∀ s : EvictLoop, _evict_cond shutdown s = true →
        (_evict_body clock s).q.length + 1 = s.q.length ∧
          ∃ b, s.q = b :: (_evict_body clock s).q) := by
  refine ⟨?_, fun s hs => evict_body_length shutdown clock s hs⟩
  have hpop := (evict_while_popped shutdown clock q i curtime tbl).1
  have hlen : (_evict_popped shutdown clock q i curtime).length +
      (_evict_while shutdown clock q i curtime tbl).2.1.length = q.length := by
    rw [← List.length_append, hpop]
  refine ⟨_, _, evict_iterate_spec shutdown clock q q.length i curtime tbl (le_refl _),
    by omega, by simp only; omega, ?_, rfl, rfl,
    fun fuel hfuel => evict_iterate_spec shutdown clock q fuel i curtime tbl hfuel⟩
  have hexit : ∀ (q0 : ExpiryQueue) (i0 : Nat) (c0 : Int) (t0 : KVStore),
      _evict_cond shutdown ⟨(_evict_while shutdown clock q0 i0 c0 t0).1,
        (_evict_while shutdown clock q0 i0 c0 t0).2.1,
        (_evict_while shutdown clock q0 i0 c0 t0).2.2,
        i0 + (_evict_popped shutdown clock q0 i0 c0).length⟩ = false := by
    intro q0
    induction q0 with
    | nil =>
      intro i0 c0 t0
      simp [_evict_cond, _evict_while]
    | cons b rest ih =>
      intro i0 c0 t0
      obtain ⟨ts, ks⟩ := b
      by_cases hc : (!shutdown && decide (ts < c0)) = true
      · have := ih (i0 + 1) (clock (i0 + 1)) (_evict_for t0 ts ks)
        rw [_evict_while, if_pos hc]
        unfold _evict_cond at this ⊢
        exact this
      · rw [_evict_while, if_neg hc]
        unfold _evict_cond
        simpa using hc
  exact hexit q i curtime tbl


theorem evict_iterate_example :
    _evict_iterate false (fun _ => 5000) 1
        ⟨[], [(100, [7]), (200, [8]), (9000, [7])], 5000, 0⟩ = none ∧
      _evict_iterate false (fun _ => 5000) 3
        ⟨[], [(100, [7]), (200, [8]), (9000, [7])], 5000, 0⟩ =
        some (⟨[], [(9000, [7])], 5000, 2⟩, 2) := by
  constructor
  · rfl
  · rfl

end ExpireMap

end ExpireMapModel
